import Mathlib

/-!
Verification development for the mcp-gateway repository.

Rust strings are modelled as byte lists (`ByteStr := List Nat`, each element a
byte value below 256); this matches the byte-level behaviour of `&str`
operations used by the code (prefix stripping, splitting on ASCII separators,
byte-lexicographic `cmp`).  External library functions used by the code
(base64, serde_json, sha2) are implemented faithfully from their documented
algorithms.  Machine integers are modelled as `Nat` (the code only uses
`min`/`max`/saturating operations on them, so no wrap-around occurs on the
paths modelled here); `f64` retry coefficients are modelled as exact rationals.
-/

/-- Byte strings: the model of Rust `String`/`&str`/`Vec<u8>` contents. -/
abbrev ByteStr := List Nat

/-- Bytes of an ASCII Lean string literal (used only for readable constants;
all constants written this way are pure ASCII, where codepoints and UTF-8
bytes coincide). -/
def strBytes (s : String) : ByteStr := s.data.map Char.toNat

/-- Predicate: every element of the byte string is an actual byte. -/
def BytesValid (s : ByteStr) : Prop := ∀ b ∈ s, b < 256

instance (s : ByteStr) : Decidable (BytesValid s) := by
  unfold BytesValid; infer_instance

/-- Option-valued map over a list, failing if any element fails
(the model of iterator collect into Option). -/
def mapOpt (f : Nat → Option Nat) : List Nat → Option (List Nat)
  | [] => some []
  | x :: xs =>
    match f x with
    | none => none
    | some v => (mapOpt f xs).map (fun vs => v :: vs)

/-! ## base64 (URL-safe alphabet, no padding), as used by the `base64` crate
with `URL_SAFE_NO_PAD`. -/

/-- Map a sextet value (0..63) to its base64url alphabet byte. -/
def b64Char (n : Nat) : Nat :=
  if n < 26 then 65 + n
  else if n < 52 then 97 + (n - 26)
  else if n < 62 then 48 + (n - 52)
  else if n = 62 then 45
  else 95

/-- Inverse of the base64url alphabet: byte to sextet value. -/
def b64CharInv (c : Nat) : Option Nat :=
  if 65 ≤ c ∧ c ≤ 90 then some (c - 65)
  else if 97 ≤ c ∧ c ≤ 122 then some (26 + (c - 97))
  else if 48 ≤ c ∧ c ≤ 57 then some (52 + (c - 48))
  else if c = 45 then some 62
  else if c = 95 then some 63
  else none

/-- base64url (no pad) encoding of a byte string. -/
def b64Encode : ByteStr → ByteStr
  | [] => []
  | [a] => [b64Char (a / 4), b64Char (a % 4 * 16)]
  | [a, b] => [b64Char (a / 4), b64Char (a % 4 * 16 + b / 16), b64Char (b % 16 * 4)]
  | a :: b :: c :: rest =>
    b64Char (a / 4) :: b64Char (a % 4 * 16 + b / 16) :: b64Char (b % 16 * 4 + c / 64) ::
      b64Char (c % 64) :: b64Encode rest

/-- Decode a list of sextet values back into bytes; rejects a trailing chunk of
one sextet and non-canonical (nonzero) trailing bits, as the `base64` crate
does by default. -/
def b64DecodeVals : List Nat → Option (List Nat)
  | [] => some []
  | [_] => none
  | [x, y] => if y % 16 = 0 then some [x * 4 + y / 16] else none
  | [x, y, z] =>
    if z % 4 = 0 then some [x * 4 + y / 16, y % 16 * 16 + z / 4] else none
  | x :: y :: z :: w :: rest =>
    (b64DecodeVals rest).map
      (fun bs => (x * 4 + y / 16) :: (y % 16 * 16 + z / 4) :: (z % 4 * 64 + w) :: bs)

/-- base64url (no pad) decoding. -/
def b64Decode (cs : ByteStr) : Option (List Nat) :=
  (mapOpt b64CharInv cs).bind b64DecodeVals

theorem b64CharInv_b64Char {n : Nat} (h : n < 64) : b64CharInv (b64Char n) = some n := by
  revert h
  revert n
  decide

theorem b64Char_ne_dot (n : Nat) : b64Char n ≠ 46 := by
  unfold b64Char
  repeat' split
  all_goals omega

theorem b64Char_ne_colon (n : Nat) : b64Char n ≠ 58 := by
  unfold b64Char
  repeat' split
  all_goals omega

/-- All bytes emitted by the base64url encoder lie in the alphabet, hence are
never the ASCII dot (46). -/
theorem b64Encode_no_dot (s : ByteStr) : ∀ c ∈ b64Encode s, c ≠ 46 := by
  induction s using b64Encode.induct with
  | case1 => intro c hc; simp [b64Encode] at hc
  | case2 a =>
    intro c hc
    simp only [b64Encode, List.mem_cons, List.not_mem_nil, or_false] at hc
    rcases hc with h | h <;> (subst h; exact b64Char_ne_dot _)
  | case3 a b =>
    intro c hc
    simp only [b64Encode, List.mem_cons, List.not_mem_nil, or_false] at hc
    rcases hc with h | h | h <;> (subst h; exact b64Char_ne_dot _)
  | case4 a b cc rest ih =>
    intro c hc
    simp only [b64Encode, List.mem_cons] at hc
    rcases hc with h | h | h | h | h
    · subst h; exact b64Char_ne_dot _
    · subst h; exact b64Char_ne_dot _
    · subst h; exact b64Char_ne_dot _
    · subst h; exact b64Char_ne_dot _
    · exact ih c h

/-- The base64url encoder never produces a single-character output. -/
theorem b64Encode_length_ne_one (s : ByteStr) : (b64Encode s).length ≠ 1 := by
  match s with
  | [] => simp [b64Encode]
  | [a] => simp [b64Encode]
  | [a, b] => simp [b64Encode]
  | a :: b :: c :: rest => simp [b64Encode]

/-- Round trip: decoding an encoded byte string recovers it exactly. -/
theorem b64Decode_b64Encode (s : ByteStr) (h : BytesValid s) :
    b64Decode (b64Encode s) = some s := by
  induction s using b64Encode.induct with
  | case1 => simp [b64Encode, b64Decode, b64DecodeVals, mapOpt]
  | case2 a =>
    have ha : a < 256 := h a (by simp)
    have h1 : a / 4 < 64 := by omega
    have h2 : a % 4 * 16 < 64 := by omega
    simp only [b64Encode, b64Decode, mapOpt, b64CharInv_b64Char h1, b64CharInv_b64Char h2,
      Option.map_some', Option.some_bind]
    simp only [b64DecodeVals]
    have e1 : a % 4 * 16 % 16 = 0 := by omega
    rw [if_pos e1]
    have e2 : a / 4 * 4 + a % 4 * 16 / 16 = a := by omega
    rw [e2]
  | case3 a b =>
    have ha : a < 256 := h a (by simp)
    have hb : b < 256 := h b (by simp)
    have h1 : a / 4 < 64 := by omega
    have h2 : a % 4 * 16 + b / 16 < 64 := by omega
    have h3 : b % 16 * 4 < 64 := by omega
    simp only [b64Encode, b64Decode, mapOpt, b64CharInv_b64Char h1, b64CharInv_b64Char h2,
      b64CharInv_b64Char h3, Option.map_some', Option.some_bind]
    simp only [b64DecodeVals]
    have e1 : b % 16 * 4 % 4 = 0 := by omega
    rw [if_pos e1]
    have e2 : a / 4 * 4 + (a % 4 * 16 + b / 16) / 16 = a := by omega
    have e3 : (a % 4 * 16 + b / 16) % 16 * 16 + b % 16 * 4 / 4 = b := by omega
    rw [e2, e3]
  | case4 a b c rest ih =>
    have ha : a < 256 := h a (by simp)
    have hb : b < 256 := h b (by simp)
    have hc : c < 256 := h c (by simp)
    have hrest : BytesValid rest := by
      intro x hx; exact h x (by simp [hx])
    have h1 : a / 4 < 64 := by omega
    have h2 : a % 4 * 16 + b / 16 < 64 := by omega
    have h3 : b % 16 * 4 + c / 64 < 64 := by omega
    have h4 : c % 64 < 64 := by omega
    have ihv := ih hrest
    unfold b64Decode at ihv
    cases hm : mapOpt b64CharInv (b64Encode rest) with
    | none => rw [hm] at ihv; simp at ihv
    | some vs =>
      rw [hm] at ihv
      simp only [Option.some_bind] at ihv
      simp only [b64Encode, b64Decode, mapOpt, b64CharInv_b64Char h1, b64CharInv_b64Char h2,
        b64CharInv_b64Char h3, b64CharInv_b64Char h4, hm, Option.map_some', Option.some_bind]
      simp only [b64DecodeVals]
      rw [ihv]
      simp only [Option.map_some']
      have e1 : a / 4 * 4 + (a % 4 * 16 + b / 16) / 16 = a := by omega
      have e2 : (a % 4 * 16 + b / 16) % 16 * 16 + (b % 16 * 4 + c / 64) / 4 = b := by omega
      have e3 : (b % 16 * 4 + c / 64) % 4 * 64 + c % 64 = c := by omega
      rw [e1, e2, e3]

/-! ## Byte-string splitting utilities (models of `str::strip_prefix`,
`str::split_once`, `str::rsplit_once`). -/

/-- Model of `str::strip_prefix`. -/
def stripPrefixBytes (p s : ByteStr) : Option ByteStr :=
  if p.isPrefixOf s then some (s.drop p.length) else none

/-- Model of `str::split_once` on a single separator byte: splits around the
first occurrence of the separator. -/
def splitOnceBytes (sep : Nat) : ByteStr → Option (ByteStr × ByteStr)
  | [] => none
  | c :: rest =>
    if c = sep then some ([], rest)
    else (splitOnceBytes sep rest).map (fun p => (c :: p.1, p.2))

/-- Model of `str::rsplit_once` on a single separator byte: splits around the
last occurrence of the separator, returning (before, after). -/
def rsplitOnceBytes (sep : Nat) (s : ByteStr) : Option (ByteStr × ByteStr) :=
  (splitOnceBytes sep s.reverse).map (fun p => (p.2.reverse, p.1.reverse))

theorem stripPrefixBytes_append (p rest : ByteStr) :
    stripPrefixBytes p (p ++ rest) = some rest := by
  unfold stripPrefixBytes
  rw [if_pos]
  · simp
  · rw [List.isPrefixOf_iff_prefix]
    exact List.prefix_append p rest

theorem splitOnceBytes_append {xs : ByteStr} (sep : Nat) (ys : ByteStr)
    (hx : sep ∉ xs) : splitOnceBytes sep (xs ++ sep :: ys) = some (xs, ys) := by
  induction xs with
  | nil => simp [splitOnceBytes]
  | cons c rest ih =>
    have hc : c ≠ sep := by
      intro h; exact hx (by simp [h])
    have hrest : sep ∉ rest := by
      intro h; exact hx (by simp [h])
    simp only [List.cons_append, splitOnceBytes, if_neg hc]
    rw [show rest.append (sep :: ys) = rest ++ sep :: ys from rfl, ih hrest]
    simp

theorem rsplitOnceBytes_append {ys : ByteStr} (sep : Nat) (xs : ByteStr)
    (hy : sep ∉ ys) : rsplitOnceBytes sep (xs ++ sep :: ys) = some (xs, ys) := by
  unfold rsplitOnceBytes
  have hrev : (xs ++ sep :: ys).reverse = ys.reverse ++ sep :: xs.reverse := by
    simp
  rw [hrev, splitOnceBytes_append sep xs.reverse (by simpa using hy)]
  simp

/-- A strict extension of a prefix is tested first: helper for showing a byte
string does not start with a given prefix. -/
theorem stripPrefixBytes_eq_none {p s : ByteStr} (h : ¬ p.isPrefixOf s) :
    stripPrefixBytes p s = none := by
  unfold stripPrefixBytes
  rw [if_neg h]

/-! ## JSON serialization of JSON-RPC request ids.

Source: `rmcp::model::RequestId` (a JSON-RPC id: number or string), serialized
by `serde_json::to_vec` and parsed back by `serde_json::from_slice` +
`from_value::<RequestId>`.  The parser below models exactly the subset of JSON
reachable for request ids (a top-level string or a non-negative decimal
number); on other inputs it returns `none`, as `from_value::<RequestId>` does
for non-number, non-string JSON values. -/

/-- Model of a JSON-RPC request id (`rmcp::model::RequestId`): a number or a
string. -/
inductive RequestId where
  | num (n : Nat)
  | str (s : ByteStr)
deriving DecidableEq

/-- Lowercase hex digit byte for a value below 16 (serde_json writes lowercase
hex in control-character escapes). -/
def hexDigitChar (n : Nat) : Nat := if n < 10 then 48 + n else 97 + (n - 10)

/-- Parse one hex digit byte (either case accepted, as in JSON). -/
def parseHexDigit (c : Nat) : Option Nat :=
  if 48 ≤ c ∧ c ≤ 57 then some (c - 48)
  else if 97 ≤ c ∧ c ≤ 102 then some (10 + (c - 97))
  else if 65 ≤ c ∧ c ≤ 70 then some (10 + (c - 65))
  else none

/-- JSON string escaping of one byte, exactly as serde_json does: quote and
backslash escaped, the five short control escapes, other control bytes as
a 6-byte unicode escape, and everything else passed through. -/
def escByte (b : Nat) : ByteStr :=
  if b = 34 then [92, 34]
  else if b = 92 then [92, 92]
  else if b = 8 then [92, 98]
  else if b = 9 then [92, 116]
  else if b = 10 then [92, 110]
  else if b = 12 then [92, 102]
  else if b = 13 then [92, 114]
  else if b < 32 then [92, 117, 48, 48, hexDigitChar (b / 16), hexDigitChar (b % 16)]
  else [b]

/-- JSON string escaping of a byte string. -/
def escBytes : ByteStr → ByteStr
  | [] => []
  | b :: rest => escByte b ++ escBytes rest

/-- Decimal digit accumulation (most significant first).  The first argument
is structural recursion fuel; every use supplies fuel at least the number, so
the fuel-exhausted branch is unreachable.  (A fuel parameter keeps the
definition kernel-computable.) -/
def decDigitsAux : Nat → Nat → ByteStr → ByteStr
  | _, 0, acc => acc
  | 0, _ + 1, acc => acc
  | fuel + 1, n + 1, acc => decDigitsAux fuel ((n + 1) / 10) ((48 + (n + 1) % 10) :: acc)

/-- Decimal representation of a natural number, as ASCII bytes. -/
def decBytes (n : Nat) : ByteStr := if n = 0 then [48] else decDigitsAux n n []

/-- Serialization of a request id to JSON bytes (model of
`serde_json::to_vec(&id.into_json_value())`). -/
def reqIdJsonBytes : RequestId → ByteStr
  | .num n => decBytes n
  | .str s => 34 :: (escBytes s ++ [34])

/-- Parse four hex digits into a code unit (helper for JSON unicode escapes). -/
def parseHex4 : ByteStr → Option (Nat × ByteStr)
  | h1 :: h2 :: h3 :: h4 :: rest =>
    match parseHexDigit h1, parseHexDigit h2, parseHexDigit h3, parseHexDigit h4 with
    | some d1, some d2, some d3, some d4 => some (((d1 * 16 + d2) * 16 + d3) * 16 + d4, rest)
    | _, _, _, _ => none
  | _ => none

/-- Decode one JSON string escape (the input starts after the backslash),
returning the decoded byte and the remaining input.  Unicode escapes are
accepted for codepoints below 128 (the only ones the escaper produces; larger
codepoints would decode to multi-byte UTF-8 and never arise for ids). -/
def unescapeOne : ByteStr → Option (Nat × ByteStr)
  | [] => none
  | e :: rest2 =>
    if e = 34 then some (34, rest2)
    else if e = 92 then some (92, rest2)
    else if e = 47 then some (47, rest2)
    else if e = 98 then some (8, rest2)
    else if e = 116 then some (9, rest2)
    else if e = 110 then some (10, rest2)
    else if e = 102 then some (12, rest2)
    else if e = 114 then some (13, rest2)
    else if e = 117 then
      match parseHex4 rest2 with
      | some (code, rest3) => if code < 128 then some (code, rest3) else none
      | none => none
    else none

theorem parseHex4_length {xs ys : ByteStr} {c : Nat} (h : parseHex4 xs = some (c, ys)) :
    ys.length + 4 = xs.length := by
  rcases xs with _ | ⟨h1, xs1⟩
  · simp [parseHex4] at h
  rcases xs1 with _ | ⟨h2, xs2⟩
  · simp [parseHex4] at h
  rcases xs2 with _ | ⟨h3, xs3⟩
  · simp [parseHex4] at h
  rcases xs3 with _ | ⟨h4, rest⟩
  · simp [parseHex4] at h
  simp only [parseHex4] at h
  rcases e1 : parseHexDigit h1 with _ | d1 <;> rw [e1] at h
  · simp at h
  rcases e2 : parseHexDigit h2 with _ | d2 <;> rw [e2] at h
  · simp at h
  rcases e3 : parseHexDigit h3 with _ | d3 <;> rw [e3] at h
  · simp at h
  rcases e4 : parseHexDigit h4 with _ | d4 <;> rw [e4] at h
  · simp at h
  simp only [Option.some.injEq, Prod.mk.injEq] at h
  rw [← h.2]
  simp

theorem unescapeOne_length {xs ys : ByteStr} {b : Nat} (h : unescapeOne xs = some (b, ys)) :
    ys.length < xs.length := by
  rcases xs with _ | ⟨e, rest2⟩
  · simp [unescapeOne] at h
  · simp only [unescapeOne] at h
    by_cases e34 : e = 34
    · rw [if_pos e34] at h
      simp only [Option.some.injEq, Prod.mk.injEq] at h
      rw [← h.2]; simp
    rw [if_neg e34] at h
    by_cases e92 : e = 92
    · rw [if_pos e92] at h
      simp only [Option.some.injEq, Prod.mk.injEq] at h
      rw [← h.2]; simp
    rw [if_neg e92] at h
    by_cases e47 : e = 47
    · rw [if_pos e47] at h
      simp only [Option.some.injEq, Prod.mk.injEq] at h
      rw [← h.2]; simp
    rw [if_neg e47] at h
    by_cases e98 : e = 98
    · rw [if_pos e98] at h
      simp only [Option.some.injEq, Prod.mk.injEq] at h
      rw [← h.2]; simp
    rw [if_neg e98] at h
    by_cases e116 : e = 116
    · rw [if_pos e116] at h
      simp only [Option.some.injEq, Prod.mk.injEq] at h
      rw [← h.2]; simp
    rw [if_neg e116] at h
    by_cases e110 : e = 110
    · rw [if_pos e110] at h
      simp only [Option.some.injEq, Prod.mk.injEq] at h
      rw [← h.2]; simp
    rw [if_neg e110] at h
    by_cases e102 : e = 102
    · rw [if_pos e102] at h
      simp only [Option.some.injEq, Prod.mk.injEq] at h
      rw [← h.2]; simp
    rw [if_neg e102] at h
    by_cases e114 : e = 114
    · rw [if_pos e114] at h
      simp only [Option.some.injEq, Prod.mk.injEq] at h
      rw [← h.2]; simp
    rw [if_neg e114] at h
    by_cases e117 : e = 117
    · rw [if_pos e117] at h
      rcases ehex : parseHex4 rest2 with _ | ⟨code, rest3⟩ <;> rw [ehex] at h
      · simp at h
      · dsimp only at h
        by_cases hcode : code < 128
        · rw [if_pos hcode] at h
          simp only [Option.some.injEq, Prod.mk.injEq] at h
          have := parseHex4_length ehex
          rw [← h.2]
          simp only [List.length_cons]
          omega
        · rw [if_neg hcode] at h; cases h
    · rw [if_neg e117] at h; cases h

/-- Parse the body of a JSON string (after the opening quote), returning the
unescaped content and the remaining input after the closing quote.  The first
argument is structural recursion fuel (each step consumes at least one input
byte, so fuel equal to the input length always suffices; a fuel parameter
keeps the definition kernel-computable). -/
def parseStrBodyF : Nat → ByteStr → Option (ByteStr × ByteStr)
  | 0, _ => none
  | _ + 1, [] => none
  | fuel + 1, c :: rest =>
    if c = 34 then some ([], rest)
    else if c = 92 then
      match unescapeOne rest with
      | some p => (parseStrBodyF fuel p.2).map (fun q => (p.1 :: q.1, q.2))
      | none => none
    else if c < 32 then none
    else (parseStrBodyF fuel rest).map (fun p => (c :: p.1, p.2))

/-- Parse the body of a JSON string. -/
def parseStrBody (bs : ByteStr) : Option (ByteStr × ByteStr) :=
  parseStrBodyF bs.length bs

theorem parseStrBodyF_mono :
    ∀ fuel bs, bs.length ≤ fuel → parseStrBodyF fuel bs = parseStrBody bs := by
  intro fuel
  induction fuel using Nat.strong_induction_on with
  | _ fuel ih =>
    intro bs hlen
    match fuel, bs with
    | 0, [] => rfl
    | 0, _ :: _ => simp at hlen
    | f + 1, [] => rfl
    | f + 1, c :: rest =>
      simp only [List.length_cons] at hlen
      show _ = parseStrBodyF (rest.length + 1) (c :: rest)
      rw [parseStrBodyF, parseStrBodyF]
      by_cases h34 : c = 34
      · rw [if_pos h34, if_pos h34]
      rw [if_neg h34, if_neg h34]
      by_cases h92 : c = 92
      · rw [if_pos h92, if_pos h92]
        cases hu : unescapeOne rest with
        | none => rfl
        | some p =>
          have hp := unescapeOne_length hu
          dsimp only
          rw [ih f (by omega) p.2 (by omega),
            ih rest.length (by omega) p.2 (by omega)]
      rw [if_neg h92, if_neg h92]
      by_cases hctl : c < 32
      · rw [if_pos hctl, if_pos hctl]
      rw [if_neg hctl, if_neg hctl]
      rw [ih f (by omega) rest (by omega),
        ih rest.length (by omega) rest (by omega)]

theorem parseStrBody_quote (rest : ByteStr) : parseStrBody (34 :: rest) = some ([], rest) := by
  unfold parseStrBody
  simp only [List.length_cons]
  rw [parseStrBodyF]
  rw [if_pos rfl]

theorem parseStrBody_esc (rest : ByteStr) (p : Nat × ByteStr)
    (h : unescapeOne rest = some p) :
    parseStrBody (92 :: rest) = (parseStrBody p.2).map (fun q => (p.1 :: q.1, q.2)) := by
  unfold parseStrBody
  simp only [List.length_cons]
  rw [parseStrBodyF]
  rw [if_neg (by norm_num), if_pos rfl, h]
  dsimp only
  have hp := unescapeOne_length h
  rw [parseStrBodyF_mono rest.length p.2 (by omega)]
  rfl

theorem parseStrBody_other (c : Nat) (rest : ByteStr) (h34 : c ≠ 34) (h92 : c ≠ 92)
    (hctl : ¬ c < 32) :
    parseStrBody (c :: rest) = (parseStrBody rest).map (fun p => (c :: p.1, p.2)) := by
  unfold parseStrBody
  simp only [List.length_cons]
  rw [parseStrBodyF]
  rw [if_neg h34, if_neg h92, if_neg hctl]

/-- Digit test for decimal parsing. -/
def isDigitByte (c : Nat) : Bool := 48 ≤ c && c ≤ 57

/-- Parse an unsigned decimal number occupying the entire input. -/
def parseDecimal (bs : ByteStr) : Option Nat :=
  if bs ≠ [] ∧ bs.all isDigitByte then
    some (bs.foldl (fun a c => a * 10 + (c - 48)) 0)
  else none

/-- Parse JSON bytes into a request id (model of `serde_json::from_slice`
followed by `from_value::<RequestId>`). -/
def reqIdFromJsonBytes (bs : ByteStr) : Option RequestId :=
  match bs with
  | [] => none
  | c :: rest =>
    if c = 34 then
      match parseStrBody rest with
      | some p => if p.2 = [] then some (.str p.1) else none
      | none => none
    else (parseDecimal (c :: rest)).map RequestId.num

theorem parseHexDigit_hexDigitChar {n : Nat} (h : n < 16) :
    parseHexDigit (hexDigitChar n) = some n := by
  revert h; revert n; decide

theorem decDigitsAux_fuel (n : Nat) :
    ∀ fuel acc, n ≤ fuel → decDigitsAux fuel n acc = decDigitsAux n n [] ++ acc := by
  induction n using Nat.strong_induction_on with
  | _ n ih =>
    match n with
    | 0 => intro fuel acc _; simp [decDigitsAux]
    | m + 1 =>
      intro fuel acc hfuel
      match fuel, hfuel with
      | f + 1, hfuel =>
        have hq : (m + 1) / 10 ≤ m := by omega
        have hqf : (m + 1) / 10 ≤ f := by omega
        rw [decDigitsAux, ih ((m + 1) / 10) (by omega) f ((48 + (m + 1) % 10) :: acc) hqf]
        conv_rhs =>
          rw [decDigitsAux, ih ((m + 1) / 10) (by omega) m [48 + (m + 1) % 10] hq]
        simp

theorem decDigitsAux_all_digits (n : Nat) :
    ∀ c ∈ decDigitsAux n n [], isDigitByte c = true := by
  induction n using Nat.strong_induction_on with
  | _ n ih =>
    match n with
    | 0 => intro c hc; simp [decDigitsAux] at hc
    | m + 1 =>
      intro c hc
      have hq : (m + 1) / 10 ≤ m := by omega
      rw [decDigitsAux, decDigitsAux_fuel ((m + 1) / 10) m _ hq] at hc
      rw [List.mem_append] at hc
      rcases hc with hc | hc
      · exact ih ((m + 1) / 10) (by omega) c hc
      · have : c = 48 + (m + 1) % 10 := by simpa using hc
        subst this
        unfold isDigitByte
        simp only [Bool.and_eq_true, decide_eq_true_eq]
        omega

theorem decDigitsAux_foldl (n : Nat) :
    ∀ a : Nat,
      (decDigitsAux n n []).foldl (fun a c => a * 10 + (c - 48)) a =
        a * 10 ^ (decDigitsAux n n []).length + n := by
  induction n using Nat.strong_induction_on with
  | _ n ih =>
    match n with
    | 0 => intro a; simp [decDigitsAux]
    | m + 1 =>
      intro a
      have hq : (m + 1) / 10 ≤ m := by omega
      rw [decDigitsAux, decDigitsAux_fuel ((m + 1) / 10) m _ hq]
      rw [List.foldl_append, List.length_append]
      rw [ih ((m + 1) / 10) (by omega) a]
      simp only [List.foldl_cons, List.foldl_nil, List.length_cons, List.length_nil]
      have hmod : 48 + (m + 1) % 10 - 48 = (m + 1) % 10 := by omega
      rw [hmod]
      have hdiv : (m + 1) / 10 * 10 + (m + 1) % 10 = m + 1 := by omega
      rw [pow_succ]
      ring_nf
      omega

theorem decDigitsAux_ne_nil (n : Nat) (hn : 0 < n) : decDigitsAux n n [] ≠ [] := by
  match n, hn with
  | m + 1, _ =>
    have hq : (m + 1) / 10 ≤ m := by omega
    rw [decDigitsAux, decDigitsAux_fuel ((m + 1) / 10) m _ hq]
    simp

/-- Decimal round trip. -/
theorem parseDecimal_decBytes (n : Nat) : parseDecimal (decBytes n) = some n := by
  by_cases hn : n = 0
  · subst hn; simp [decBytes, parseDecimal, isDigitByte]
  · unfold decBytes
    rw [if_neg hn]
    unfold parseDecimal
    rw [if_pos]
    · rw [decDigitsAux_foldl n 0]
      simp
    · constructor
      · exact decDigitsAux_ne_nil n (Nat.pos_of_ne_zero hn)
      · rw [List.all_eq_true]
        exact decDigitsAux_all_digits n

theorem decBytes_all_digits (n : Nat) : ∀ c ∈ decBytes n, isDigitByte c = true := by
  unfold decBytes
  split
  · intro c hc
    have : c = 48 := by simpa using hc
    subst this; decide
  · exact decDigitsAux_all_digits n


/-- The validity predicate for request ids in the byte model: string ids hold
actual bytes. -/
def ReqIdValid : RequestId → Prop
  | .num _ => True
  | .str s => BytesValid s

/-- Unescaping inverts escaping: parsing the escaped body followed by a closing
quote recovers the original content and the remaining input. -/
theorem parseStrBody_escBytes (s : ByteStr) (h : BytesValid s) :
    ∀ tail, parseStrBody (escBytes s ++ (34 :: tail)) = some (s, tail) := by
  induction s with
  | nil =>
    intro tail
    show parseStrBody (34 :: tail) = _
    rw [parseStrBody_quote]
  | cons b rest ih =>
    intro tail
    have hb : b < 256 := h b (by simp)
    have hrest : BytesValid rest := fun x hx => h x (by simp [hx])
    have ihr := ih hrest tail
    show parseStrBody ((escByte b ++ escBytes rest) ++ (34 :: tail)) = _
    rw [List.append_assoc]
    by_cases h34 : b = 34
    · subst h34
      have he : escByte 34 = [92, 34] := by decide
      rw [he]
      show parseStrBody (92 :: (34 :: (escBytes rest ++ (34 :: tail)))) = _
      rw [parseStrBody_esc _ (34, escBytes rest ++ (34 :: tail)) (by simp [unescapeOne])]
      rw [ihr]
      rfl
    by_cases h92 : b = 92
    · subst h92
      have he : escByte 92 = [92, 92] := by decide
      rw [he]
      show parseStrBody (92 :: (92 :: (escBytes rest ++ (34 :: tail)))) = _
      rw [parseStrBody_esc _ (92, escBytes rest ++ (34 :: tail)) (by simp [unescapeOne])]
      rw [ihr]
      rfl
    by_cases h8 : b = 8
    · subst h8
      have he : escByte 8 = [92, 98] := by decide
      rw [he]
      show parseStrBody (92 :: (98 :: (escBytes rest ++ (34 :: tail)))) = _
      rw [parseStrBody_esc _ (8, escBytes rest ++ (34 :: tail)) (by simp [unescapeOne])]
      rw [ihr]
      rfl
    by_cases h9 : b = 9
    · subst h9
      have he : escByte 9 = [92, 116] := by decide
      rw [he]
      show parseStrBody (92 :: (116 :: (escBytes rest ++ (34 :: tail)))) = _
      rw [parseStrBody_esc _ (9, escBytes rest ++ (34 :: tail)) (by simp [unescapeOne])]
      rw [ihr]
      rfl
    by_cases h10 : b = 10
    · subst h10
      have he : escByte 10 = [92, 110] := by decide
      rw [he]
      show parseStrBody (92 :: (110 :: (escBytes rest ++ (34 :: tail)))) = _
      rw [parseStrBody_esc _ (10, escBytes rest ++ (34 :: tail)) (by simp [unescapeOne])]
      rw [ihr]
      rfl
    by_cases h12 : b = 12
    · subst h12
      have he : escByte 12 = [92, 102] := by decide
      rw [he]
      show parseStrBody (92 :: (102 :: (escBytes rest ++ (34 :: tail)))) = _
      rw [parseStrBody_esc _ (12, escBytes rest ++ (34 :: tail)) (by simp [unescapeOne])]
      rw [ihr]
      rfl
    by_cases h13 : b = 13
    · subst h13
      have he : escByte 13 = [92, 114] := by decide
      rw [he]
      show parseStrBody (92 :: (114 :: (escBytes rest ++ (34 :: tail)))) = _
      rw [parseStrBody_esc _ (13, escBytes rest ++ (34 :: tail)) (by simp [unescapeOne])]
      rw [ihr]
      rfl
    by_cases hc : b < 32
    · have hesc : escByte b =
          [92, 117, 48, 48, hexDigitChar (b / 16), hexDigitChar (b % 16)] := by
        unfold escByte
        rw [if_neg h34, if_neg h92, if_neg h8, if_neg h9, if_neg h10, if_neg h12, if_neg h13,
          if_pos hc]
      rw [hesc]
      have hd1 : parseHexDigit (hexDigitChar (b / 16)) = some (b / 16) :=
        parseHexDigit_hexDigitChar (by omega)
      have hd2 : parseHexDigit (hexDigitChar (b % 16)) = some (b % 16) :=
        parseHexDigit_hexDigitChar (by omega)
      have hph : parseHexDigit 48 = some 0 := by decide
      have hhex : parseHex4 (48 :: 48 :: hexDigitChar (b / 16) :: hexDigitChar (b % 16) ::
          (escBytes rest ++ (34 :: tail))) =
          some (b, escBytes rest ++ (34 :: tail)) := by
        simp only [parseHex4, hph, hd1, hd2]
        have hcode : ((0 * 16 + 0) * 16 + b / 16) * 16 + b % 16 = b := by omega
        rw [hcode]
      have hun : unescapeOne (117 :: 48 :: 48 :: hexDigitChar (b / 16) ::
          hexDigitChar (b % 16) :: (escBytes rest ++ (34 :: tail))) =
          some (b, escBytes rest ++ (34 :: tail)) := by
        simp only [unescapeOne]
        norm_num
        rw [hhex]
        dsimp only
        rw [if_pos (by omega : b < 128)]
      simp only [List.cons_append, List.nil_append]
      rw [parseStrBody_esc _ (b, escBytes rest ++ (34 :: tail)) hun]
      rw [ihr]
      rfl
    · have hesc : escByte b = [b] := by
        unfold escByte
        rw [if_neg h34, if_neg h92, if_neg h8, if_neg h9, if_neg h10, if_neg h12, if_neg h13,
          if_neg hc]
      rw [hesc]
      simp only [List.cons_append, List.nil_append]
      rw [parseStrBody_other b _ h34 h92 hc]
      rw [ihr]
      rfl

/-- Round trip of the JSON serialization of request ids. -/
theorem reqIdFromJsonBytes_reqIdJsonBytes (id : RequestId) (h : ReqIdValid id) :
    reqIdFromJsonBytes (reqIdJsonBytes id) = some id := by
  match id with
  | .num n =>
    show reqIdFromJsonBytes (decBytes n) = some (.num n)
    have hdig := decBytes_all_digits n
    have hne : decBytes n ≠ [] := by
      unfold decBytes
      split
      · simp
      · exact decDigitsAux_ne_nil n (by omega)
    rcases hds : decBytes n with _ | ⟨c, cs⟩
    · exact absurd hds hne
    have hcdig : isDigitByte c = true := hdig c (by rw [hds]; simp)
    have hc34 : c ≠ 34 := by
      unfold isDigitByte at hcdig
      simp only [Bool.and_eq_true, decide_eq_true_eq] at hcdig
      omega
    show reqIdFromJsonBytes (c :: cs) = _
    rw [reqIdFromJsonBytes.eq_def]
    dsimp only
    rw [if_neg hc34]
    rw [← hds, parseDecimal_decBytes n]
    rfl
  | .str s =>
    have hs : BytesValid s := h
    show reqIdFromJsonBytes (34 :: (escBytes s ++ [34])) = some (.str s)
    rw [reqIdFromJsonBytes.eq_def]
    dsimp only
    rw [if_pos rfl]
    have := parseStrBody_escBytes s hs []
    rw [show escBytes s ++ ([34] : ByteStr) = escBytes s ++ (34 :: []) from rfl, this]
    rfl

theorem stripPrefixBytes_some_iff {p s r : ByteStr} :
    stripPrefixBytes p s = some r ↔ s = p ++ r := by
  unfold stripPrefixBytes
  by_cases hp : p.isPrefixOf s
  · rw [if_pos hp]
    rw [List.isPrefixOf_iff_prefix] at hp
    have hs := List.prefix_iff_eq_append.mp hp
    constructor
    · intro h
      simp only [Option.some.injEq] at h
      rw [← h, hs]
    · intro h
      subst h
      simp
  · rw [if_neg hp]
    constructor
    · intro h; cases h
    · intro h
      subst h
      exact absurd (List.isPrefixOf_iff_prefix.mpr (List.prefix_append p r)) hp

theorem hexDigitChar_lt {n : Nat} (h : n < 16) : hexDigitChar n < 256 := by
  unfold hexDigitChar
  split <;> omega

theorem escByte_bytesValid {b : Nat} (hb : b < 256) : ∀ c ∈ escByte b, c < 256 := by
  intro c hc
  unfold escByte at hc
  by_cases h34 : b = 34
  · rw [if_pos h34] at hc; simp at hc; omega
  rw [if_neg h34] at hc
  by_cases h92 : b = 92
  · rw [if_pos h92] at hc; simp at hc; omega
  rw [if_neg h92] at hc
  by_cases h8 : b = 8
  · rw [if_pos h8] at hc; simp at hc; omega
  rw [if_neg h8] at hc
  by_cases h9 : b = 9
  · rw [if_pos h9] at hc; simp at hc; omega
  rw [if_neg h9] at hc
  by_cases h10 : b = 10
  · rw [if_pos h10] at hc; simp at hc; omega
  rw [if_neg h10] at hc
  by_cases h12 : b = 12
  · rw [if_pos h12] at hc; simp at hc; omega
  rw [if_neg h12] at hc
  by_cases h13 : b = 13
  · rw [if_pos h13] at hc; simp at hc; omega
  rw [if_neg h13] at hc
  by_cases hctl : b < 32
  · rw [if_pos hctl] at hc
    simp only [List.mem_cons, List.not_mem_nil, or_false] at hc
    rcases hc with h | h | h | h | h | h
    · omega
    · omega
    · omega
    · omega
    · subst h; exact hexDigitChar_lt (by omega)
    · subst h; exact hexDigitChar_lt (by omega)
  · rw [if_neg hctl] at hc; simp at hc; omega

theorem escBytes_bytesValid {s : ByteStr} (h : BytesValid s) : BytesValid (escBytes s) := by
  induction s with
  | nil => intro c hc; simp [escBytes] at hc
  | cons b rest ih =>
    intro c hc
    have hb : b < 256 := h b (by simp)
    have hrest : BytesValid rest := fun x hx => h x (by simp [hx])
    simp only [escBytes, List.mem_append] at hc
    rcases hc with hc | hc
    · exact escByte_bytesValid hb c hc
    · exact ih hrest c hc

theorem reqIdJsonBytes_bytesValid {id : RequestId} (h : ReqIdValid id) :
    BytesValid (reqIdJsonBytes id) := by
  match id with
  | .num n =>
    intro c hc
    have := decBytes_all_digits n c hc
    unfold isDigitByte at this
    simp only [Bool.and_eq_true, decide_eq_true_eq] at this
    omega
  | .str s =>
    intro c hc
    simp only [reqIdJsonBytes, List.mem_cons, List.mem_append] at hc
    rcases hc with hc | hc | hc
    · omega
    · exact escBytes_bytesValid h c hc
    · simp at hc; omega

/-! ## Proxied request-id codec.

Source: `src/crates/gateway/src/mcp/ids.rs` (`make_proxied_request_id`,
`parse_proxied_request_id`) and `crate::store::RequestIdNamespacing`. -/

/-- Bytes of the constant `PROXIED_REQUEST_ID_PREFIX` = "unrelated.proxy". -/
def proxiedRequestIdPrefix : ByteStr := strBytes "unrelated.proxy"

/-- Bytes of the constant `PROXIED_REQUEST_ID_PREFIX_READABLE` =
"unrelated.proxy.r". -/
def proxiedRequestIdPrefixReadable : ByteStr := strBytes "unrelated.proxy.r"

/-- Model of `crate::store::RequestIdNamespacing`; `opq` stands for the
source's `Opaque` variant. -/
inductive RequestIdNamespacing where
  | opq
  | readable
deriving DecidableEq

/-- Model of `make_proxied_request_id`. -/
def makeProxiedRequestId (ns : RequestIdNamespacing) (upstreamId : ByteStr)
    (original : RequestId) : RequestId :=
  let originalB64 := b64Encode (reqIdJsonBytes original)
  match ns with
  | .opq =>
    .str (proxiedRequestIdPrefix ++ 46 :: (b64Encode upstreamId ++ 46 :: originalB64))
  | .readable =>
    .str (proxiedRequestIdPrefixReadable ++ 46 :: (upstreamId ++ 46 :: originalB64))

/-- UTF-8 continuation byte test. -/
def utf8Cont (b : Nat) : Bool := 128 ≤ b && b ≤ 191

/-- UTF-8 validity of a byte string (the check performed by
`String::from_utf8` and by `serde_json::from_slice`). -/
def utf8Valid : ByteStr → Bool
  | [] => true
  | c :: rest =>
    if c < 128 then utf8Valid rest
    else if 194 ≤ c ∧ c ≤ 223 then
      match rest with
      | c1 :: rest2 => utf8Cont c1 && utf8Valid rest2
      | [] => false
    else if c = 224 then
      match rest with
      | c1 :: c2 :: rest2 => (160 ≤ c1 && c1 ≤ 191) && (utf8Cont c2 && utf8Valid rest2)
      | _ => false
    else if (225 ≤ c ∧ c ≤ 236) ∨ c = 238 ∨ c = 239 then
      match rest with
      | c1 :: c2 :: rest2 => utf8Cont c1 && (utf8Cont c2 && utf8Valid rest2)
      | _ => false
    else if c = 237 then
      match rest with
      | c1 :: c2 :: rest2 => (128 ≤ c1 && c1 ≤ 159) && (utf8Cont c2 && utf8Valid rest2)
      | _ => false
    else if c = 240 then
      match rest with
      | c1 :: c2 :: c3 :: rest2 =>
        (144 ≤ c1 && c1 ≤ 191) && (utf8Cont c2 && (utf8Cont c3 && utf8Valid rest2))
      | _ => false
    else if 241 ≤ c ∧ c ≤ 243 then
      match rest with
      | c1 :: c2 :: c3 :: rest2 =>
        utf8Cont c1 && (utf8Cont c2 && (utf8Cont c3 && utf8Valid rest2))
      | _ => false
    else if c = 244 then
      match rest with
      | c1 :: c2 :: c3 :: rest2 =>
        (128 ≤ c1 && c1 ≤ 143) && (utf8Cont c2 && (utf8Cont c3 && utf8Valid rest2))
      | _ => false
    else false

/-- Shared tail of both parser branches: base64-decode the original id and
parse its JSON (`serde_json::from_slice` requires valid UTF-8 first). -/
def decodeProxiedTail (upstreamId : ByteStr) (ob64 : ByteStr) :
    Option (ByteStr × RequestId) :=
  match b64Decode ob64 with
  | none => none
  | some obytes =>
    if utf8Valid obytes then
      match reqIdFromJsonBytes obytes with
      | some orig => some (upstreamId, orig)
      | none => none
    else none

/-- The readable branch of `parse_proxied_request_id` (entered when the
readable prefix matches). -/
def parseProxiedReadable (s : ByteStr) : Option (ByteStr × RequestId) :=
  match stripPrefixBytes (proxiedRequestIdPrefixReadable ++ [46]) s with
  | none => none
  | some rest =>
    match rsplitOnceBytes 46 rest with
    | none => none
    | some p => decodeProxiedTail p.1 p.2

/-- The opaque branch of `parse_proxied_request_id` (entered when the readable
prefix does not match but the opaque prefix does). -/
def parseProxiedOpq (s : ByteStr) : Option (ByteStr × RequestId) :=
  match stripPrefixBytes (proxiedRequestIdPrefix ++ [46]) s with
  | none => none
  | some rest =>
    match splitOnceBytes 46 rest with
    | none => none
    | some p =>
      match b64Decode p.1 with
      | none => none
      | some ubytes =>
        if utf8Valid ubytes then decodeProxiedTail ubytes p.2 else none

/-- Model of `parse_proxied_request_id`: the readable prefix is tested first
(it is a strict extension of the opaque prefix), then the opaque prefix. -/
def parseProxiedRequestId : RequestId → Option (ByteStr × RequestId)
  | .num _ => none
  | .str s =>
    if (proxiedRequestIdPrefixReadable ++ [46]).isPrefixOf s then parseProxiedReadable s
    else parseProxiedOpq s

theorem prefixReadable_structure :
    proxiedRequestIdPrefixReadable = proxiedRequestIdPrefix ++ [46, 114] := by decide

theorem dot_not_mem_b64Encode (s : ByteStr) : 46 ∉ b64Encode s :=
  fun hmem => b64Encode_no_dot s 46 hmem rfl

theorem b64Decode_r_none : b64Decode [114] = none := by decide

theorem decodeProxiedTail_roundtrip (X : ByteStr) (orig : RequestId)
    (horig : ReqIdValid orig) (hjson : utf8Valid (reqIdJsonBytes orig) = true) :
    decodeProxiedTail X (b64Encode (reqIdJsonBytes orig)) = some (X, orig) := by
  unfold decodeProxiedTail
  rw [b64Decode_b64Encode _ (reqIdJsonBytes_bytesValid horig)]
  dsimp only
  rw [if_pos hjson]
  rw [reqIdFromJsonBytes_reqIdJsonBytes orig horig]

theorem opqMade_not_readable_pref (up : ByteStr) (tail : ByteStr) :
    ¬ (proxiedRequestIdPrefixReadable ++ [46]).isPrefixOf
      ((proxiedRequestIdPrefix ++ [46]) ++ (b64Encode up ++ 46 :: tail)) = true := by
  rw [List.isPrefixOf_iff_prefix]
  rw [prefixReadable_structure]
  have e1 : (proxiedRequestIdPrefix ++ [46, 114]) ++ ([46] : ByteStr) =
      (proxiedRequestIdPrefix ++ [46]) ++ [114, 46] := by simp
  rw [e1, List.prefix_append_right_inj]
  intro hpre
  rcases hbu : b64Encode up with _ | ⟨x, t⟩
  · rw [hbu] at hpre
    simp only [List.nil_append] at hpre
    rw [List.cons_prefix_cons] at hpre
    omega
  · rw [hbu] at hpre
    simp only [List.cons_append] at hpre
    rw [List.cons_prefix_cons] at hpre
    rcases hpre with ⟨hx, hpre2⟩
    rcases t with _ | ⟨y, t2⟩
    · exact b64Encode_length_ne_one up (by rw [hbu]; rfl)
    · simp only [List.cons_append] at hpre2
      rw [List.cons_prefix_cons] at hpre2
      have hy : y ∈ b64Encode up := by rw [hbu]; simp
      exact b64Encode_no_dot up y hy hpre2.1.symm

/-- C3.  Round trip of proxied request ids: for both namespacing modes,
parsing the id produced by the encoder returns exactly the original
(upstream id, JSON-RPC id) pair.  Hypotheses: the upstream id is a valid
UTF-8 byte string (it comes from a Rust `&str`) and the original id is a
valid id whose JSON serialization is valid UTF-8 (always true for ids coming
from `rmcp`, whose strings are valid UTF-8). -/
theorem proxied_request_id_roundtrip (ns : RequestIdNamespacing) (up : ByteStr)
    (orig : RequestId) (hup : BytesValid up) (hutf : utf8Valid up = true)
    (horig : ReqIdValid orig) (hjson : utf8Valid (reqIdJsonBytes orig) = true) :
    parseProxiedRequestId (makeProxiedRequestId ns up orig) = some (up, orig) := by
  match ns with
  | .readable =>
    show parseProxiedRequestId
      (.str (proxiedRequestIdPrefixReadable ++ 46 :: (up ++ 46 :: b64Encode (reqIdJsonBytes orig)))) = _
    have hsform : proxiedRequestIdPrefixReadable ++ 46 :: (up ++ 46 :: b64Encode (reqIdJsonBytes orig)) =
        (proxiedRequestIdPrefixReadable ++ [46]) ++ (up ++ 46 :: b64Encode (reqIdJsonBytes orig)) := by
      simp
    rw [parseProxiedRequestId, hsform]
    rw [if_pos (List.isPrefixOf_iff_prefix.mpr (List.prefix_append _ _))]
    unfold parseProxiedReadable
    rw [stripPrefixBytes_append]
    dsimp only
    rw [rsplitOnceBytes_append 46 up (dot_not_mem_b64Encode _)]
    exact decodeProxiedTail_roundtrip up orig horig hjson
  | .opq =>
    show parseProxiedRequestId
      (.str (proxiedRequestIdPrefix ++ 46 :: (b64Encode up ++ 46 :: b64Encode (reqIdJsonBytes orig)))) = _
    have hsform : proxiedRequestIdPrefix ++ 46 :: (b64Encode up ++ 46 :: b64Encode (reqIdJsonBytes orig)) =
        (proxiedRequestIdPrefix ++ [46]) ++ (b64Encode up ++ 46 :: b64Encode (reqIdJsonBytes orig)) := by
      simp
    rw [parseProxiedRequestId, hsform]
    rw [if_neg (opqMade_not_readable_pref up _)]
    unfold parseProxiedOpq
    rw [stripPrefixBytes_append]
    dsimp only
    rw [splitOnceBytes_append 46 _ (dot_not_mem_b64Encode up)]
    dsimp only
    rw [b64Decode_b64Encode up hup]
    dsimp only
    rw [if_pos hutf]
    exact decodeProxiedTail_roundtrip up orig horig hjson

/-- C4.  Readable/opaque disjointness: a readable-made id is never decoded by
the opaque branch, an opaque-made id is never decoded by the readable branch
(the readable prefix, a strict extension of the opaque prefix, is tested
first), and on no input do the two branch decoders disagree. -/
theorem proxied_request_id_branch_disjoint :
    (∀ up orig s, makeProxiedRequestId .readable up orig = .str s →
      parseProxiedOpq s = none) ∧
    (∀ up orig s, makeProxiedRequestId .opq up orig = .str s →
      parseProxiedReadable s = none) ∧
    (∀ s r1 r2, parseProxiedReadable s = some r1 → parseProxiedOpq s = some r2 →
      r1 = r2) := by
  have hre : ∀ rest : ByteStr,
      parseProxiedOpq ((proxiedRequestIdPrefixReadable ++ [46]) ++ rest) = none := by
    intro rest
    unfold parseProxiedOpq
    have hsform : (proxiedRequestIdPrefixReadable ++ [46]) ++ rest =
        (proxiedRequestIdPrefix ++ [46]) ++ (114 :: 46 :: rest) := by
      rw [prefixReadable_structure]
      simp
    rw [hsform, stripPrefixBytes_append]
    dsimp only
    have hsp : splitOnceBytes 46 (114 :: 46 :: rest) = some ([114], rest) := by
      have : (114 :: 46 :: rest : ByteStr) = [114] ++ 46 :: rest := by simp
      rw [this]
      exact splitOnceBytes_append 46 rest (by simp)
    rw [hsp]
    dsimp only
    rw [b64Decode_r_none]
  refine ⟨?_, ?_, ?_⟩
  · intro up orig s hmake
    have hs : s = (proxiedRequestIdPrefixReadable ++ [46]) ++
        (up ++ 46 :: b64Encode (reqIdJsonBytes orig)) := by
      simp only [makeProxiedRequestId, RequestId.str.injEq] at hmake
      rw [← hmake]
      simp
    rw [hs]
    exact hre _
  · intro up orig s hmake
    have hs : s = (proxiedRequestIdPrefix ++ [46]) ++
        (b64Encode up ++ 46 :: b64Encode (reqIdJsonBytes orig)) := by
      simp only [makeProxiedRequestId, RequestId.str.injEq] at hmake
      rw [← hmake]
      simp
    unfold parseProxiedReadable
    rw [hs, stripPrefixBytes_eq_none]
    intro hcontra
    exact opqMade_not_readable_pref up _ hcontra
  · intro s r1 r2 hr ho
    exfalso
    unfold parseProxiedReadable at hr
    cases hstrip : stripPrefixBytes (proxiedRequestIdPrefixReadable ++ [46]) s with
    | none => rw [hstrip] at hr; cases hr
    | some rest =>
      have hs : s = (proxiedRequestIdPrefixReadable ++ [46]) ++ rest :=
        stripPrefixBytes_some_iff.mp hstrip
      rw [hs, hre rest] at ho
      cases ho

example :
    parseProxiedRequestId
      (makeProxiedRequestId .readable (strBytes "a.b") (RequestId.str (strBytes "x"))) =
      some (strBytes "a.b", RequestId.str (strBytes "x")) := by decide

example :
    parseProxiedRequestId
      (makeProxiedRequestId .opq (strBytes "up-1") (RequestId.num 42)) =
      some (strBytes "up-1", RequestId.num 42) := by decide

/-- Witness for C3 at a concrete input. -/
theorem proxied_request_id_roundtrip_witness :
    BytesValid (strBytes "up-1") ∧ utf8Valid (strBytes "up-1") = true ∧
    ReqIdValid (RequestId.num 7) ∧
    utf8Valid (reqIdJsonBytes (RequestId.num 7)) = true ∧
    parseProxiedRequestId (makeProxiedRequestId .opq (strBytes "up-1") (RequestId.num 7)) =
      some (strBytes "up-1", RequestId.num 7) :=
  ⟨by decide, by decide, trivial, by decide,
    proxied_request_id_roundtrip .opq (strBytes "up-1") (RequestId.num 7)
      (by decide) (by decide) trivial (by decide)⟩

/-- Witness for C4 at a concrete input: a readable-made id is rejected by the
opaque branch. -/
theorem proxied_request_id_branch_disjoint_witness :
    parseProxiedOpq (proxiedRequestIdPrefixReadable ++
      46 :: (strBytes "up-1" ++ 46 :: b64Encode (reqIdJsonBytes (RequestId.num 7)))) = none :=
  proxied_request_id_branch_disjoint.1 (strBytes "up-1") (RequestId.num 7) _ rfl

/-! ## SHA-256 (the `sha2` crate), implemented from the FIPS 180-4 algorithm
over byte lists, with `Nat` arithmetic modulo 2^32. -/

/-- SHA-256 round constants (fractional parts of cube roots of the first 64
primes). -/
def sha256K : List Nat := [
  1116352408, 1899447441, 3049323471, 3921009573, 961987163, 1508970993, 2453635748, 2870763221,
  3624381080, 310598401, 607225278, 1426881987, 1925078388, 2162078206, 2614888103, 3248222580,
  3835390401, 4022224774, 264347078, 604807628, 770255983, 1249150122, 1555081692, 1996064986,
  2554220882, 2821834349, 2952996808, 3210313671, 3336571891, 3584528711, 113926993, 338241895,
  666307205, 773529912, 1294757372, 1396182291, 1695183700, 1986661051, 2177026350, 2456956037,
  2730485921, 2820302411, 3259730800, 3345764771, 3516065817, 3600352804, 4094571909, 275423344,
  430227734, 506948616, 659060556, 883997877, 958139571, 1322822218, 1537002063, 1747873779,
  1955562222, 2024104815, 2227730452, 2361852424, 2428436474, 2756734187, 3204031479, 3329325298]

/-- SHA-256 initial state (fractional parts of square roots of the first 8
primes). -/
def sha256H0 : List Nat :=
  [1779033703, 3144134277, 1013904242, 2773480762, 1359893119, 2600822924, 528734635, 1541459225]

/-- Rotate a 32-bit word right by n bits. -/
def rotr32 (x n : Nat) : Nat := (x / 2 ^ n + x % 2 ^ n * 2 ^ (32 - n)) % 2 ^ 32

/-- Big-endian 32-bit word from four bytes. -/
def be32 (b0 b1 b2 b3 : Nat) : Nat := ((b0 * 256 + b1) * 256 + b2) * 256 + b3

/-- Group bytes into big-endian 32-bit words. -/
def toWords : ByteStr → List Nat
  | b0 :: b1 :: b2 :: b3 :: rest => be32 b0 b1 b2 b3 :: toWords rest
  | _ => []

/-- Big-endian 8-byte encoding of a (bit-length) value. -/
def be64Bytes (n : Nat) : ByteStr :=
  [n / 2 ^ 56 % 256, n / 2 ^ 48 % 256, n / 2 ^ 40 % 256, n / 2 ^ 32 % 256,
   n / 2 ^ 24 % 256, n / 2 ^ 16 % 256, n / 2 ^ 8 % 256, n % 256]

/-- SHA-256 message padding. -/
def sha256Pad (msg : ByteStr) : ByteStr :=
  let len := msg.length
  let zeros := (119 - len % 64) % 64
  msg ++ 128 :: (List.replicate zeros 0 ++ be64Bytes (8 * len))

/-- Extend the 16-word block schedule by the given number of words. -/
def extendSchedule : Nat → List Nat → List Nat
  | 0, w => w
  | k + 1, w =>
    let n := w.length
    let w15 := w.getD (n - 15) 0
    let w2 := w.getD (n - 2) 0
    let w16 := w.getD (n - 16) 0
    let w7 := w.getD (n - 7) 0
    let s0 := rotr32 w15 7 ^^^ rotr32 w15 18 ^^^ w15 / 2 ^ 3
    let s1 := rotr32 w2 17 ^^^ rotr32 w2 19 ^^^ w2 / 2 ^ 10
    extendSchedule k (w ++ [(w16 + s0 + w7 + s1) % 2 ^ 32])

/-- One round per (constant, scheduled word) pair over the 8-word state. -/
def sha256Compress :
    List (Nat × Nat) → Nat × Nat × Nat × Nat × Nat × Nat × Nat × Nat →
      Nat × Nat × Nat × Nat × Nat × Nat × Nat × Nat
  | [], st => st
  | (k, w) :: rest, (a, b, c, d, e, f, g, hh) =>
    let s1 := rotr32 e 6 ^^^ rotr32 e 11 ^^^ rotr32 e 25
    let ch := (e &&& f) ^^^ ((4294967295 - e) &&& g)
    let t1 := (hh + s1 + ch + k + w) % 2 ^ 32
    let s0 := rotr32 a 2 ^^^ rotr32 a 13 ^^^ rotr32 a 22
    let maj := (a &&& b) ^^^ (a &&& c) ^^^ (b &&& c)
    let t2 := (s0 + maj) % 2 ^ 32
    sha256Compress rest ((t1 + t2) % 2 ^ 32, a, b, c, (d + t1) % 2 ^ 32, e, f, g)

/-- State as an 8-element list, for block chaining. -/
def sha256Block (block : ByteStr) (h : List Nat) : List Nat :=
  let w := extendSchedule 48 (toWords block)
  let st := (h.getD 0 0, h.getD 1 0, h.getD 2 0, h.getD 3 0,
             h.getD 4 0, h.getD 5 0, h.getD 6 0, h.getD 7 0)
  match sha256Compress (sha256K.zip w) st with
  | (a, b, c, d, e, f, g, hh) =>
    [(h.getD 0 0 + a) % 2 ^ 32, (h.getD 1 0 + b) % 2 ^ 32, (h.getD 2 0 + c) % 2 ^ 32,
     (h.getD 3 0 + d) % 2 ^ 32, (h.getD 4 0 + e) % 2 ^ 32, (h.getD 5 0 + f) % 2 ^ 32,
     (h.getD 6 0 + g) % 2 ^ 32, (h.getD 7 0 + hh) % 2 ^ 32]

/-- Process the padded message 64 bytes at a time (the first argument is
structural recursion fuel; the message length always suffices since each block
consumes 64 bytes). -/
def sha256BlocksF : Nat → ByteStr → List Nat → List Nat
  | 0, _, h => h
  | fuel + 1, msg, h =>
    match msg with
    | [] => h
    | _ :: _ => sha256BlocksF fuel (msg.drop 64) (sha256Block (msg.take 64) h)

/-- Big-endian bytes of a list of 32-bit words. -/
def wordsToBytes : List Nat → ByteStr
  | [] => []
  | w :: ws => (w / 2 ^ 24 % 256) :: (w / 2 ^ 16 % 256) :: (w / 2 ^ 8 % 256) :: (w % 256) ::
      wordsToBytes ws

/-- SHA-256 digest (32 bytes) of a byte string. -/
def sha256Bytes (msg : ByteStr) : ByteStr :=
  let padded := sha256Pad msg
  wordsToBytes (sha256BlocksF padded.length padded sha256H0)

/-- Lowercase hex of a byte string (the `hex` crate). -/
def bytesToHex : ByteStr → ByteStr
  | [] => []
  | b :: rest => hexDigitChar (b / 16) :: hexDigitChar (b % 16) :: bytesToHex rest

example : bytesToHex (sha256Bytes (strBytes "abc")) =
    strBytes "ba7816bf8f01cfea414140de5dae2223b00361a396177a9cb410ff61f20015ad" := by decide

/-! ## Byte-string ordering (Rust `String`/`str` `Ord`, byte-lexicographic). -/

/-- Model of Rust byte-slice comparison. -/
def bytesCmp : ByteStr → ByteStr → Ordering
  | [], [] => .eq
  | [], _ :: _ => .lt
  | _ :: _, [] => .gt
  | a :: as_, b :: bs =>
    if a < b then .lt else if b < a then .gt else bytesCmp as_ bs

/-- Non-strict byte-lexicographic order, as a Bool. -/
def bytesLe (a b : ByteStr) : Bool :=
  match bytesCmp a b with
  | .gt => false
  | _ => true

theorem bytesCmp_eq_iff {a b : ByteStr} : bytesCmp a b = .eq ↔ a = b := by
  induction a generalizing b with
  | nil =>
    cases b with
    | nil => simp [bytesCmp]
    | cons y ys => simp [bytesCmp]
  | cons x xs ih =>
    cases b with
    | nil => simp [bytesCmp]
    | cons y ys =>
      unfold bytesCmp
      by_cases hlt : x < y
      · rw [if_pos hlt]
        constructor
        · intro h; cases h
        · intro h
          injection h with h1 _
          omega
      rw [if_neg hlt]
      by_cases hgt : y < x
      · rw [if_pos hgt]
        constructor
        · intro h; cases h
        · intro h
          injection h with h1 _
          omega
      rw [if_neg hgt]
      have hxy : x = y := by omega
      subst hxy
      rw [ih]
      constructor
      · intro h; rw [h]
      · intro h; injection h

theorem bytesCmp_gt_iff_lt {a b : ByteStr} : bytesCmp a b = .gt ↔ bytesCmp b a = .lt := by
  induction a generalizing b with
  | nil =>
    cases b with
    | nil => simp [bytesCmp]
    | cons y ys => simp [bytesCmp]
  | cons x xs ih =>
    cases b with
    | nil => simp [bytesCmp]
    | cons y ys =>
      unfold bytesCmp
      by_cases hlt : x < y
      · rw [if_pos hlt, if_neg (by omega : ¬ y < x), if_pos hlt]
        constructor
        · intro h; cases h
        · intro h; cases h
      rw [if_neg hlt]
      by_cases hgt : y < x
      · rw [if_pos hgt, if_pos hgt]
        simp
      · rw [if_neg hgt, if_neg hlt, if_neg hgt]
        exact ih

theorem bytesCmp_lt_trans {a b c : ByteStr} (h1 : bytesCmp a b = .lt)
    (h2 : bytesCmp b c = .lt) : bytesCmp a c = .lt := by
  induction a generalizing b c with
  | nil =>
    cases c with
    | nil =>
      cases b with
      | nil => cases h1
      | cons y ys => cases h2
    | cons z zs => simp [bytesCmp]
  | cons x xs ih =>
    cases b with
    | nil => cases h1
    | cons y ys =>
      cases c with
      | nil => cases h2
      | cons z zs =>
        unfold bytesCmp at h1 h2 ⊢
        by_cases hxy : x < y
        · rw [if_pos hxy] at h1
          by_cases hyz : y < z
          · rw [if_pos (by omega : x < z)]
          rw [if_neg hyz] at h2
          by_cases hzy : z < y
          · rw [if_pos hzy] at h2; cases h2
          · have : y = z := by omega
            subst this
            rw [if_pos hxy]
        rw [if_neg hxy] at h1
        by_cases hyx : y < x
        · rw [if_pos hyx] at h1; cases h1
        rw [if_neg hyx] at h1
        have hxy2 : x = y := by omega
        subst hxy2
        by_cases hxz : x < z
        · rw [if_pos hxz]
        rw [if_neg hxz] at h2 ⊢
        by_cases hzx : z < x
        · rw [if_pos hzx] at h2; cases h2
        rw [if_neg hzx] at h2 ⊢
        exact ih h1 h2

theorem bytesCmp_lt_asymm {a b : ByteStr} (h1 : bytesCmp a b = .lt)
    (h2 : bytesCmp b a = .lt) : False := by
  rw [← bytesCmp_gt_iff_lt] at h2
  rw [h1] at h2
  cases h2

theorem bytesCmp_self (a : ByteStr) : bytesCmp a a = .eq := bytesCmp_eq_iff.mpr rfl

theorem bytesLe_iff {a b : ByteStr} : bytesLe a b = true ↔ bytesCmp a b ≠ Ordering.gt := by
  unfold bytesLe
  rcases h : bytesCmp a b with _ | _ | _ <;> simp

theorem bytesLe_trans {a b c : ByteStr} (h1 : bytesLe a b = true) (h2 : bytesLe b c = true) :
    bytesLe a c = true := by
  rw [bytesLe_iff] at h1 h2 ⊢
  intro hgt
  rw [bytesCmp_gt_iff_lt] at hgt
  rcases hab : bytesCmp a b with _ | _ | _
  · rcases hbc : bytesCmp b c with _ | _ | _
    · have : bytesCmp a a = .lt := bytesCmp_lt_trans (bytesCmp_lt_trans hab hbc) hgt
      rw [bytesCmp_self a] at this
      cases this
    · have hbceq : b = c := bytesCmp_eq_iff.mp hbc
      subst hbceq
      exact bytesCmp_lt_asymm hab hgt
    · exact h2 hbc
  · have habeq : a = b := bytesCmp_eq_iff.mp hab
    subst habeq
    exact h2 (bytesCmp_gt_iff_lt.mpr hgt)
  · exact h1 hab

theorem bytesLe_total (a b : ByteStr) : bytesLe a b = true ∨ bytesLe b a = true := by
  rw [bytesLe_iff, bytesLe_iff]
  rcases hab : bytesCmp a b with _ | _ | _
  · left; intro h; cases h
  · left; intro h; cases h
  · right
    intro h
    rw [bytesCmp_gt_iff_lt.mp hab] at h
    cases h

theorem bytesLe_ne_lt {a b : ByteStr} (hle : bytesLe a b = true) (hne : a ≠ b) :
    bytesCmp a b = .lt := by
  rw [bytesLe_iff] at hle
  rcases hab : bytesCmp a b with _ | _ | _
  · rfl
  · exact absurd (bytesCmp_eq_iff.mp hab) hne
  · exact absurd hab hle


/-! ## Stable sorting (model of Rust `sort_by`, which is a stable sort;
a stable sort is uniquely determined by the comparator, so insertion sort is
an exact model and stays kernel-computable). -/

/-- Insert an element into a sorted list, before the first element it is
le-related to (keeping it after earlier equal elements is the caller's job;
`sortLe` inserts original-earlier elements last-to-first, which preserves the
original relative order of elements comparing equal). -/
def insertLe {α : Type} (le : α → α → Bool) (x : α) : List α → List α
  | [] => [x]
  | y :: ys => if le x y then x :: y :: ys else y :: insertLe le x ys

/-- Stable sort by a boolean comparator. -/
def sortLe {α : Type} (le : α → α → Bool) : List α → List α
  | [] => []
  | x :: xs => insertLe le x (sortLe le xs)

theorem insertLe_perm {α : Type} (le : α → α → Bool) (x : α) (ys : List α) :
    (insertLe le x ys).Perm (x :: ys) := by
  induction ys with
  | nil => simp [insertLe]
  | cons y ys ih =>
    unfold insertLe
    by_cases h : le x y = true
    · rw [if_pos h]
    · rw [if_neg h]
      exact (ih.cons y).trans (List.Perm.swap x y ys)

theorem sortLe_perm {α : Type} (le : α → α → Bool) (l : List α) :
    (sortLe le l).Perm l := by
  induction l with
  | nil => simp [sortLe]
  | cons x xs ih =>
    unfold sortLe
    exact (insertLe_perm le x (sortLe le xs)).trans (ih.cons x)

theorem insertLe_pairwise {α : Type} (le : α → α → Bool)
    (htrans : ∀ a b c, le a b = true → le b c = true → le a c = true)
    (htotal : ∀ a b, le a b = true ∨ le b a = true)
    (x : α) (ys : List α) (hys : ys.Pairwise (fun a b => le a b = true)) :
    (insertLe le x ys).Pairwise (fun a b => le a b = true) := by
  induction ys with
  | nil => simp [insertLe]
  | cons y ys ih =>
    rcases List.pairwise_cons.mp hys with ⟨hy, hys2⟩
    unfold insertLe
    by_cases h : le x y = true
    · rw [if_pos h]
      refine List.pairwise_cons.mpr ⟨?_, hys⟩
      intro z hz
      rcases List.mem_cons.mp hz with hz | hz
      · rw [hz]; exact h
      · exact htrans x y z h (hy z hz)
    · rw [if_neg h]
      have hyx : le y x = true := by
        rcases htotal x y with h2 | h2
        · exact absurd h2 h
        · exact h2
      refine List.pairwise_cons.mpr ⟨?_, ih hys2⟩
      intro z hz
      have hmem := (insertLe_perm le x ys).mem_iff.mp hz
      rcases List.mem_cons.mp hmem with hz2 | hz2
      · rw [hz2]; exact hyx
      · exact hy z hz2

theorem sortLe_pairwise {α : Type} (le : α → α → Bool)
    (htrans : ∀ a b c, le a b = true → le b c = true → le a c = true)
    (htotal : ∀ a b, le a b = true ∨ le b a = true) (l : List α) :
    (sortLe le l).Pairwise (fun a b => le a b = true) := by
  induction l with
  | nil => simp [sortLe]
  | cons x xs ih =>
    unfold sortLe
    exact insertLe_pairwise le htrans htotal x (sortLe le xs) ih

/-- Two key-nodup lists that are permutations of each other have the same
stable sort by key. -/
theorem sortLe_key_eq_of_perm {α : Type} (key : α → ByteStr) {l1 l2 : List α}
    (hperm : l1.Perm l2) (hnd : (l1.map key).Nodup) :
    sortLe (fun a b => bytesLe (key a) (key b)) l1 =
      sortLe (fun a b => bytesLe (key a) (key b)) l2 := by
  have htrans : ∀ a b c : α, bytesLe (key a) (key b) = true →
      bytesLe (key b) (key c) = true → bytesLe (key a) (key c) = true :=
    fun a b c h1 h2 => bytesLe_trans h1 h2
  have htotal : ∀ a b : α, bytesLe (key a) (key b) = true ∨ bytesLe (key b) (key a) = true :=
    fun a b => bytesLe_total (key a) (key b)
  have hp1 := sortLe_perm (fun a b => bytesLe (key a) (key b)) l1
  have hp2 := sortLe_perm (fun a b => bytesLe (key a) (key b)) l2
  have hperm12 := (hp1.trans hperm).trans hp2.symm
  have hs1 := sortLe_pairwise (fun a b => bytesLe (key a) (key b)) htrans htotal l1
  have hs2 := sortLe_pairwise (fun a b => bytesLe (key a) (key b)) htrans htotal l2
  have hnd1 : ((sortLe (fun a b => bytesLe (key a) (key b)) l1).map key).Nodup :=
    ((hp1.map key).nodup_iff).mpr hnd
  have hnd2 : ((sortLe (fun a b => bytesLe (key a) (key b)) l2).map key).Nodup :=
    ((hp2.map key).nodup_iff).mpr (((hperm.map key).nodup_iff).mp hnd)
  have hne1 : (sortLe (fun a b => bytesLe (key a) (key b)) l1).Pairwise
      (fun a b => key a ≠ key b) := (List.pairwise_map).mp hnd1
  have hne2 : (sortLe (fun a b => bytesLe (key a) (key b)) l2).Pairwise
      (fun a b => key a ≠ key b) := (List.pairwise_map).mp hnd2
  have hlt1 : (sortLe (fun a b => bytesLe (key a) (key b)) l1).Pairwise
      (fun a b => bytesCmp (key a) (key b) = .lt) :=
    (hs1.and hne1).imp (fun hab => bytesLe_ne_lt hab.1 hab.2)
  have hlt2 : (sortLe (fun a b => bytesLe (key a) (key b)) l2).Pairwise
      (fun a b => bytesCmp (key a) (key b) = .lt) :=
    (hs2.and hne2).imp (fun hab => bytesLe_ne_lt hab.1 hab.2)
  haveI : IsAntisymm α (fun a b => bytesCmp (key a) (key b) = .lt) :=
    ⟨fun a b h1 h2 => (bytesCmp_lt_asymm h1 h2).elim⟩
  exact List.eq_of_perm_of_sorted hperm12 hlt1 hlt2

/-! ## JSON value model (`serde_json::Value`), with objects as key-value lists.

Numbers are modelled as integers (the schema payloads the contract hasher
serializes are carried through unchanged, so the number representation does
not affect any theorem below). -/

/-- Model of `serde_json::Value`. -/
inductive Json where
  | null
  | bool (b : Bool)
  | num (n : Int)
  | str (s : ByteStr)
  | arr (xs : List Json)
  | obj (fields : List (ByteStr × Json))

/-- Decimal bytes of an integer. -/
def intDecBytes (n : Int) : ByteStr :=
  if n < 0 then 45 :: decBytes n.natAbs else decBytes n.toNat

mutual
/-- Compact JSON serialization (model of `serde_json::to_string`). -/
def serJson : Json → ByteStr
  | .null => strBytes "null"
  | .bool true => strBytes "true"
  | .bool false => strBytes "false"
  | .num n => intDecBytes n
  | .str s => 34 :: (escBytes s ++ [34])
  | .arr xs => 91 :: (serJsonList xs ++ [93])
  | .obj fs => 123 :: (serJsonFields fs ++ [125])
/-- Comma-separated serialization of array elements. -/
def serJsonList : List Json → ByteStr
  | [] => []
  | [x] => serJson x
  | x :: y :: rest => serJson x ++ 44 :: serJsonList (y :: rest)
/-- Comma-separated serialization of object fields. -/
def serJsonFields : List (ByteStr × Json) → ByteStr
  | [] => []
  | [(k, v)] => 34 :: (escBytes k ++ [34]) ++ 58 :: serJson v
  | (k, v) :: f2 :: rest =>
    34 :: (escBytes k ++ [34]) ++ 58 :: serJson v ++ 44 :: serJsonFields (f2 :: rest)
end

mutual
/-- Model of `canonicalize_json`: recursively sort object keys. -/
def canonicalizeJson : Json → Json
  | .obj fs => .obj (sortLe (fun a b => bytesLe a.1 b.1) (canonFields fs))
  | .arr xs => .arr (canonList xs)
  | other => other
/-- Canonicalize each element of a JSON array. -/
def canonList : List Json → List Json
  | [] => []
  | x :: xs => canonicalizeJson x :: canonList xs
/-- Canonicalize each value of a JSON object. -/
def canonFields : List (ByteStr × Json) → List (ByteStr × Json)
  | [] => []
  | (k, v) :: fs => (k, canonicalizeJson v) :: canonFields fs
end

/-! ## Contract hashing.

Source: `src/crates/gateway/src/contracts.rs` (`tools_contract_hash`,
`resources_contract_hash`, `prompts_contract_hash`, `canonicalize_json`). -/

/-- Model of `rmcp::model::Tool` as consumed by the contract hasher: name,
description, input/output schema objects, plus the serde serialization of the
annotations (`Json.null` when the tool has none). -/
structure ToolModel where
  name : ByteStr
  description : Option ByteStr
  inputSchema : List (ByteStr × Json)
  outputSchema : Option (List (ByteStr × Json))
  annotationsJson : Json

/-- The canonical per-tool entry built by `tools_contract_hash`. -/
def toolEntry (t : ToolModel) : ByteStr × ByteStr × Json × Json × Json :=
  (t.name, t.description.getD [],
   canonicalizeJson (Json.obj t.inputSchema),
   (t.outputSchema.map (fun s => canonicalizeJson (Json.obj s))).getD Json.null,
   canonicalizeJson t.annotationsJson)

/-- The JSON object the hasher builds for one entry (field order as written in
the source; the enclosing `canonicalize_json` re-sorts keys anyway). -/
def toolEntryJson (e : ByteStr × ByteStr × Json × Json × Json) : Json :=
  .obj [(strBytes "name", .str e.1),
        (strBytes "description", .str e.2.1),
        (strBytes "inputSchema", e.2.2.1),
        (strBytes "outputSchema", e.2.2.2.1),
        (strBytes "annotations", e.2.2.2.2)]

/-- Model of `tools_contract_hash`. -/
def tools_contract_hash (tools : List ToolModel) : ByteStr :=
  let entries := tools.map toolEntry
  let sorted := sortLe (fun a b => bytesLe a.1 b.1) entries
  let v := Json.arr (sorted.map toolEntryJson)
  bytesToHex (sha256Bytes (serJson (canonicalizeJson v)))

/-- Model of `rmcp::model::Resource` (a `RawResource`): uri, name, optional
description, MIME type and size. -/
structure ResourceModel where
  uri : ByteStr
  name : ByteStr
  description : Option ByteStr
  mimeType : Option ByteStr
  size : Option Nat

/-- Serde serialization of a resource record (optional fields omitted when
absent, as rmcp marks them `skip_serializing_if`). -/
def resourceJson (r : ResourceModel) : Json :=
  .obj ([(strBytes "uri", .str r.uri), (strBytes "name", .str r.name)] ++
    (match r.description with
     | some d => [(strBytes "description", Json.str d)]
     | none => []) ++
    (match r.mimeType with
     | some m => [(strBytes "mimeType", Json.str m)]
     | none => []) ++
    (match r.size with
     | some n => [(strBytes "size", Json.num n)]
     | none => []))

/-- Model of `resources_contract_hash`. -/
def resources_contract_hash (resources : List ResourceModel) : ByteStr :=
  let entries := resources.map (fun r => (r.uri, canonicalizeJson (resourceJson r)))
  let sorted := sortLe (fun a b => bytesLe a.1 b.1) entries
  let v := Json.arr (sorted.map Prod.snd)
  bytesToHex (sha256Bytes (serJson (canonicalizeJson v)))

/-- Model of `rmcp::model::PromptArgument`. -/
structure PromptArgumentModel where
  name : ByteStr
  description : Option ByteStr
  required : Option Bool

/-- Model of `rmcp::model::Prompt`. -/
structure PromptModel where
  name : ByteStr
  description : Option ByteStr
  arguments : Option (List PromptArgumentModel)

/-- Serde serialization of one prompt argument. -/
def promptArgumentJson (a : PromptArgumentModel) : Json :=
  .obj ([(strBytes "name", Json.str a.name)] ++
    (match a.description with
     | some d => [(strBytes "description", Json.str d)]
     | none => []) ++
    (match a.required with
     | some b => [(strBytes "required", Json.bool b)]
     | none => []))

/-- Serde serialization of a prompt record. -/
def promptJson (p : PromptModel) : Json :=
  .obj ([(strBytes "name", Json.str p.name)] ++
    (match p.description with
     | some d => [(strBytes "description", Json.str d)]
     | none => []) ++
    (match p.arguments with
     | some args => [(strBytes "arguments", Json.arr (args.map promptArgumentJson))]
     | none => []))

/-- Model of `prompts_contract_hash`. -/
def prompts_contract_hash (prompts : List PromptModel) : ByteStr :=
  let entries := prompts.map (fun p => (p.name, canonicalizeJson (promptJson p)))
  let sorted := sortLe (fun a b => bytesLe a.1 b.1) entries
  let v := Json.arr (sorted.map Prod.snd)
  bytesToHex (sha256Bytes (serJson (canonicalizeJson v)))

/-- C5 (amended).  Contract-hash order insensitivity: for lists of tools,
resources, or prompts whose sort keys (name, uri, name respectively) are
pairwise distinct, the contract hash is invariant under permutation of the
input list. -/
theorem contract_hash_permutation_invariant :
    (∀ l1 l2 : List ToolModel, l1.Perm l2 → (l1.map ToolModel.name).Nodup →
      tools_contract_hash l1 = tools_contract_hash l2) ∧
    (∀ l1 l2 : List ResourceModel, l1.Perm l2 → (l1.map ResourceModel.uri).Nodup →
      resources_contract_hash l1 = resources_contract_hash l2) ∧
    (∀ l1 l2 : List PromptModel, l1.Perm l2 → (l1.map PromptModel.name).Nodup →
      prompts_contract_hash l1 = prompts_contract_hash l2) := by
  refine ⟨?_, ?_, ?_⟩
  · intro l1 l2 hperm hnd
    simp only [tools_contract_hash]
    have hkey : (l1.map toolEntry).map Prod.fst = l1.map ToolModel.name := by
      rw [List.map_map]; rfl
    have hsort := sortLe_key_eq_of_perm Prod.fst (hperm.map toolEntry)
      (by rw [hkey]; exact hnd)
    rw [hsort]
  · intro l1 l2 hperm hnd
    simp only [resources_contract_hash]
    have hkey : (l1.map (fun r => (r.uri, canonicalizeJson (resourceJson r)))).map Prod.fst =
        l1.map ResourceModel.uri := by
      rw [List.map_map]; rfl
    have hsort := sortLe_key_eq_of_perm Prod.fst
      (hperm.map (fun r => (r.uri, canonicalizeJson (resourceJson r))))
      (by rw [hkey]; exact hnd)
    rw [hsort]
  · intro l1 l2 hperm hnd
    simp only [prompts_contract_hash]
    have hkey : (l1.map (fun p => (p.name, canonicalizeJson (promptJson p)))).map Prod.fst =
        l1.map PromptModel.name := by
      rw [List.map_map]; rfl
    have hsort := sortLe_key_eq_of_perm Prod.fst
      (hperm.map (fun p => (p.name, canonicalizeJson (promptJson p))))
      (by rw [hkey]; exact hnd)
    rw [hsort]

/-- First example tool for the C5 counterexample: name "a", description "x". -/
def c5ToolA : ToolModel := ⟨strBytes "a", some (strBytes "x"), [], none, Json.null⟩

/-- Second example tool for the C5 counterexample: same name "a",
description "y". -/
def c5ToolB : ToolModel := ⟨strBytes "a", some (strBytes "y"), [], none, Json.null⟩

set_option maxRecDepth 100000 in
/-- C5 counterexample: the claim as stated (invariance for every list and
every permutation) fails when two tools share a name: the sort by name is
stable, so swapping two same-name tools changes the canonical array and the
hash. -/
theorem tools_contract_hash_order_sensitive :
    [c5ToolA, c5ToolB].Perm [c5ToolB, c5ToolA] ∧
    tools_contract_hash [c5ToolA, c5ToolB] ≠ tools_contract_hash [c5ToolB, c5ToolA] :=
  ⟨List.Perm.swap c5ToolB c5ToolA [], by decide⟩

set_option maxRecDepth 100000 in
/-- Witness for C5 (amended) at concrete inputs with distinct names. -/
theorem contract_hash_permutation_invariant_witness :
    [c5ToolA, ⟨strBytes "b", none, [], none, Json.null⟩].Perm
      [⟨strBytes "b", none, [], none, Json.null⟩, c5ToolA] ∧
    ([c5ToolA, ⟨strBytes "b", none, [], none, Json.null⟩].map ToolModel.name).Nodup ∧
    tools_contract_hash [c5ToolA, ⟨strBytes "b", none, [], none, Json.null⟩] =
      tools_contract_hash [⟨strBytes "b", none, [], none, Json.null⟩, c5ToolA] :=
  ⟨List.Perm.swap _ _ [], by decide,
    contract_hash_permutation_invariant.1 _ _ (List.Perm.swap _ _ []) (by decide)⟩

/-! ## Aggregator: tool registration and routing.

Source: `src/crates/adapter/src/aggregator.rs` (`Aggregator::register_tools`,
`Aggregator::route_tool`, `ServerPrefixed`).  The registries are `HashMap`s;
they are modelled as key-value lists accessed only through `mapGet`,
`mapInsert`, `mapRemove` (insertion replaces the key, as `HashMap::insert`
does).  The `values().find(...)` fallback in `route_tool` iterates in
unspecified hash order; in the theorems below the matching entry is unique, so
the iteration order is irrelevant. -/

/-- Model of `unrelated_tool_transforms::TransformPipeline`, restricted to the
operation `register_tools` uses.  Modelled from the spec: the
tool-transforms crate is not under src/; per the spec, `exposedToolName`
returns the configured rename for the tool if present, else the original
name. -/
structure TransformPipeline where
  toolRenames : List (ByteStr × ByteStr)

/-- Post-transform exposed (base) name of a tool. -/
def exposedToolName (tf : TransformPipeline) (name : ByteStr) : ByteStr :=
  match tf.toolRenames.find? (fun kv => kv.1 == name) with
  | some kv => kv.2
  | none => name

/-- Model of `ToolInfo` (the fields `register_tools` destructures). -/
structure ToolInfo where
  name : ByteStr
  description : Option ByteStr
  inputSchema : Option Json
  outputSchema : Option Json
  annotationsJson : Option Json

/-- Model of `ToolMapping`. -/
structure ToolMapping where
  server : ByteStr
  originalName : ByteStr
  exposedName : ByteStr
  description : Option ByteStr
  inputSchema : Option Json
  outputSchema : Option Json
  annotationsJson : Option Json

/-- The tool registry: exposed name to mapping. -/
abbrev ToolRegistry := List (ByteStr × ToolMapping)

/-- Lookup in the registry (model of `HashMap::get`). -/
def mapGet (k : ByteStr) (m : ToolRegistry) : Option ToolMapping :=
  (m.find? (fun kv => kv.1 == k)).map Prod.snd

/-- Removal from the registry (model of `HashMap::remove`). -/
def mapRemove (k : ByteStr) (m : ToolRegistry) : ToolRegistry :=
  m.filter (fun kv => !(kv.1 == k))

/-- Insertion into the registry (model of `HashMap::insert`). -/
def mapInsert (k : ByteStr) (v : ToolMapping) (m : ToolRegistry) : ToolRegistry :=
  (k, v) :: mapRemove k m

/-- Model of `HashSet::insert` for the collision set. -/
def collInsert (b : ByteStr) (s : List ByteStr) : List ByteStr :=
  if b ∈ s then s else b :: s

/-- Model of `ServerPrefixed::to_string`: `server:name` (58 is the colon). -/
def serverPrefixedStr (server name : ByteStr) : ByteStr := server ++ 58 :: name

/-- Model of `ServerPrefixed::parse`: split at the last colon; both parts must
be nonempty. -/
def serverPrefixedParse (s : ByteStr) : Option (ByteStr × ByteStr) :=
  match rsplitOnceBytes 58 s with
  | some p => if p.1 = [] ∨ p.2 = [] then none else some p
  | none => none

/-- Aggregator state restricted to tools (the claims under study do not touch
the resource and prompt registries). -/
structure AggState where
  tools : ToolRegistry
  toolCollisions : List ByteStr

/-- Build the `ToolMapping` inserted for a tool. -/
def mkToolMapping (server : ByteStr) (t : ToolInfo) (exposedName : ByteStr) : ToolMapping :=
  ⟨server, t.name, exposedName, t.description, t.inputSchema, t.outputSchema, t.annotationsJson⟩

/-- One iteration of the `register_tools` loop, translated from the source. -/
def registerToolOne (server : ByteStr) (tf : TransformPipeline) (st : AggState)
    (tool : ToolInfo) : AggState :=
  let baseName := exposedToolName tf tool.name
  let hasExistingOther : Bool :=
    match mapGet baseName st.tools with
    | some m => m.server != server
    | none => false
  let step :=
    if hasExistingOther then
      let collisions2 := collInsert baseName st.toolCollisions
      let registry2 :=
        match mapGet baseName st.tools with
        | some existing =>
          let prefixedExisting := serverPrefixedStr existing.server existing.exposedName
          mapInsert prefixedExisting { existing with exposedName := prefixedExisting }
            (mapRemove baseName st.tools)
        | none => st.tools
      (registry2, collisions2, serverPrefixedStr server baseName)
    else if baseName ∈ st.toolCollisions then
      (st.tools, st.toolCollisions, serverPrefixedStr server baseName)
    else
      (st.tools, st.toolCollisions, baseName)
  match step with
  | (registry1, collisions1, exposedName) =>
    if (mapGet exposedName registry1).isSome then
      ⟨registry1, collisions1⟩
    else
      ⟨mapInsert exposedName (mkToolMapping server tool exposedName) registry1, collisions1⟩

/-- Model of `Aggregator::register_tools`. -/
def registerTools (server : ByteStr) (tools : List ToolInfo) (tf : TransformPipeline)
    (st : AggState) : AggState :=
  tools.foldl (registerToolOne server tf) st

/-- One source registration. -/
structure Registration where
  server : ByteStr
  tools : List ToolInfo
  transforms : TransformPipeline

/-- Register a list of sources into a fresh aggregator. -/
def registerAll (regs : List Registration) : AggState :=
  regs.foldl (fun st r => registerTools r.server r.tools r.transforms st) ⟨[], []⟩

/-- Model of `Aggregator::route_tool`. -/
def routeTool (st : AggState) (toolName : ByteStr) : Option (ByteStr × ByteStr) :=
  match mapGet toolName st.tools with
  | some m => some (m.server, m.originalName)
  | none =>
    match serverPrefixedParse toolName with
    | some p =>
      match st.tools.find? (fun kv => kv.2.server == p.1 && kv.2.exposedName == p.2) with
      | some kv => some (kv.2.server, kv.2.originalName)
      | none => none
    | none => none

theorem mapGet_insert_self (k : ByteStr) (v : ToolMapping) (m : ToolRegistry) :
    mapGet k (mapInsert k v m) = some v := by
  simp [mapGet, mapInsert, List.find?]

theorem mapGet_remove_ne {k1 k : ByteStr} (h : k1 ≠ k) (m : ToolRegistry) :
    mapGet k1 (mapRemove k m) = mapGet k1 m := by
  induction m with
  | nil => rfl
  | cons kv m ih =>
    unfold mapRemove mapGet
    by_cases hk : kv.1 = k
    · rw [List.filter_cons]
      have : (!(kv.1 == k)) = false := by simp [hk]
      rw [this]
      simp only [Bool.false_eq_true, if_neg (by trivial : ¬ False)]
      have hfind : (kv.1 == k1) = false := by
        simp only [beq_eq_false_iff_ne]
        rw [hk]
        exact fun he => h he.symm
      rw [List.find?]
      rw [hfind]
      exact ih
    · rw [List.filter_cons]
      have : (!(kv.1 == k)) = true := by simp [hk]
      rw [this]
      simp only [if_pos trivial]
      rw [List.find?, List.find?]
      by_cases hk1 : kv.1 = k1
      · have : (kv.1 == k1) = true := by simp [hk1]
        rw [this]
      · have : (kv.1 == k1) = false := by simp [hk1]
        rw [this]
        exact ih

theorem mapGet_remove_self (k : ByteStr) (m : ToolRegistry) :
    mapGet k (mapRemove k m) = none := by
  induction m with
  | nil => rfl
  | cons kv m ih =>
    unfold mapRemove mapGet at ih ⊢
    rw [List.filter_cons]
    by_cases hk : kv.1 = k
    · have : (!(kv.1 == k)) = false := by simp [hk]
      rw [this]
      simp only [Bool.false_eq_true, if_neg (by trivial : ¬ False)]
      exact ih
    · have : (!(kv.1 == k)) = true := by simp [hk]
      rw [this]
      simp only [if_pos trivial]
      rw [List.find?]
      have : (kv.1 == k) = false := by simp [hk]
      rw [this]
      exact ih

theorem mapGet_insert_ne {k1 k : ByteStr} (h : k1 ≠ k) (v : ToolMapping) (m : ToolRegistry) :
    mapGet k1 (mapInsert k v m) = mapGet k1 m := by
  unfold mapInsert mapGet
  rw [List.find?]
  have : (k == k1) = false := by
    simp only [beq_eq_false_iff_ne]
    exact fun he => h he.symm
  rw [this]
  exact mapGet_remove_ne h m

theorem mapRemove_keys_sublist (k : ByteStr) (m : ToolRegistry) :
    ((mapRemove k m).map Prod.fst).Sublist (m.map Prod.fst) :=
  (List.filter_sublist m).map Prod.fst

theorem mapInsert_keys_nodup (k : ByteStr) (v : ToolMapping) (m : ToolRegistry)
    (h : (m.map Prod.fst).Nodup) : ((mapInsert k v m).map Prod.fst).Nodup := by
  unfold mapInsert
  rw [List.map_cons]
  refine List.nodup_cons.mpr ⟨?_, (mapRemove_keys_sublist k m).nodup h⟩
  intro hmem
  rw [List.mem_map] at hmem
  rcases hmem with ⟨kv, hkv, hfst⟩
  unfold mapRemove at hkv
  rw [List.mem_filter] at hkv
  rcases hkv with ⟨_, hne⟩
  rw [hfst] at hne
  simp at hne

theorem mapGet_mem {k : ByteStr} {v : ToolMapping} {m : ToolRegistry}
    (h : mapGet k m = some v) : (k, v) ∈ m := by
  unfold mapGet at h
  cases hf : m.find? (fun kv => kv.1 == k) with
  | none => rw [hf] at h; cases h
  | some kv =>
    rw [hf] at h
    simp only [Option.map_some', Option.some.injEq] at h
    have hmem := List.mem_of_find?_eq_some hf
    have hkey := List.find?_some hf
    rw [beq_iff_eq] at hkey
    have : kv = (k, v) := by
      rcases kv with ⟨k2, v2⟩
      simp only at hkey h
      rw [hkey, h]
    rw [← this]
    exact hmem

theorem mem_mapGet {k : ByteStr} {v : ToolMapping} {m : ToolRegistry}
    (hnd : (m.map Prod.fst).Nodup) (h : (k, v) ∈ m) : mapGet k m = some v := by
  induction m with
  | nil => cases h
  | cons kv m ih =>
    rw [List.map_cons, List.nodup_cons] at hnd
    rcases hnd with ⟨hnotin, hnd2⟩
    rcases List.mem_cons.mp h with h | h
    · rw [← h]
      unfold mapGet
      rw [List.find?]
      simp
    · have hk : kv.1 ≠ k := by
        intro he
        apply hnotin
        rw [List.mem_map]
        exact ⟨(k, v), h, he.symm⟩
      unfold mapGet
      rw [List.find?]
      have : (kv.1 == k) = false := by simp [hk]
      rw [this]
      exact ih hnd2 h

/-! ## Characterization of `register_tools` over a flattened sequence of
(server, post-transform base name, tool) triples. -/

/-- One registered tool occurrence: (server, post-transform base name, tool). -/
abbrev SrcTriple := ByteStr × ByteStr × ToolInfo

/-- The `register_tools` loop body with the base name precomputed. -/
def registerTripleStep (st : AggState) (tr : SrcTriple) : AggState :=
  let baseName := tr.2.1
  let hasExistingOther : Bool :=
    match mapGet baseName st.tools with
    | some m => m.server != tr.1
    | none => false
  let step :=
    if hasExistingOther then
      let collisions2 := collInsert baseName st.toolCollisions
      let registry2 :=
        match mapGet baseName st.tools with
        | some existing =>
          let prefixedExisting := serverPrefixedStr existing.server existing.exposedName
          mapInsert prefixedExisting { existing with exposedName := prefixedExisting }
            (mapRemove baseName st.tools)
        | none => st.tools
      (registry2, collisions2, serverPrefixedStr tr.1 baseName)
    else if baseName ∈ st.toolCollisions then
      (st.tools, st.toolCollisions, serverPrefixedStr tr.1 baseName)
    else
      (st.tools, st.toolCollisions, baseName)
  match step with
  | (registry1, collisions1, exposedName) =>
    if (mapGet exposedName registry1).isSome then
      ⟨registry1, collisions1⟩
    else
      ⟨mapInsert exposedName (mkToolMapping tr.1 tr.2.2 exposedName) registry1, collisions1⟩

theorem registerToolOne_eq_tripleStep (server : ByteStr) (tf : TransformPipeline)
    (st : AggState) (tool : ToolInfo) :
    registerToolOne server tf st tool =
      registerTripleStep st (server, exposedToolName tf tool.name, tool) := rfl

/-- The triples registered by a list of source registrations, in order. -/
def regTriples (regs : List Registration) : List SrcTriple :=
  (regs.map (fun r =>
    r.tools.map (fun t => (r.server, exposedToolName r.transforms t.name, t)))).flatten

theorem registerTools_eq_fold (server : ByteStr) (tools : List ToolInfo)
    (tf : TransformPipeline) (st : AggState) :
    registerTools server tools tf st =
      (tools.map (fun t => (server, exposedToolName tf t.name, t))).foldl
        registerTripleStep st := by
  induction tools generalizing st with
  | nil => rfl
  | cons t ts ih =>
    unfold registerTools at ih ⊢
    rw [List.foldl_cons, List.map_cons, List.foldl_cons]
    rw [← registerToolOne_eq_tripleStep]
    exact ih (registerToolOne server tf st t)

theorem registerAll_eq_fold (regs : List Registration) :
    registerAll regs = (regTriples regs).foldl registerTripleStep ⟨[], []⟩ := by
  suffices h : ∀ st, regs.foldl (fun st r => registerTools r.server r.tools r.transforms st) st =
      (regTriples regs).foldl registerTripleStep st by
    exact h ⟨[], []⟩
  induction regs with
  | nil => intro st; rfl
  | cons r rs ih =>
    intro st
    rw [List.foldl_cons]
    unfold regTriples
    rw [List.map_cons, List.flatten_cons, List.foldl_append]
    rw [registerTools_eq_fold]
    exact ih _

/-- Number of occurrences of a base name among registered triples. -/
def countBase (done : List SrcTriple) (b : ByteStr) : Nat :=
  (done.filter (fun tr => tr.2.1 == b)).length

/-- The mapping registered for a non-colliding triple. -/
def bareMapping (tr : SrcTriple) : ToolMapping := mkToolMapping tr.1 tr.2.2 tr.2.1

/-- The mapping registered for a colliding triple. -/
def prefMapping (tr : SrcTriple) : ToolMapping :=
  mkToolMapping tr.1 tr.2.2 (serverPrefixedStr tr.1 tr.2.1)

/-- Colon-freeness of a byte string. -/
def NoColon (s : ByteStr) : Prop := 58 ∉ s

instance (s : ByteStr) : Decidable (NoColon s) :=
  inferInstanceAs (Decidable (58 ∉ s))

theorem serverPrefixedStr_inj {s1 b1 s2 b2 : ByteStr} (h1 : NoColon s1) (h2 : NoColon s2)
    (he : serverPrefixedStr s1 b1 = serverPrefixedStr s2 b2) : s1 = s2 ∧ b1 = b2 := by
  have e1 : splitOnceBytes 58 (serverPrefixedStr s1 b1) = some (s1, b1) :=
    splitOnceBytes_append 58 b1 h1
  have e2 : splitOnceBytes 58 (serverPrefixedStr s2 b2) = some (s2, b2) :=
    splitOnceBytes_append 58 b2 h2
  rw [he, e2] at e1
  simp only [Option.some.injEq, Prod.mk.injEq] at e1
  exact ⟨e1.1.symm, e1.2.symm⟩

theorem bare_ne_pref {b s b2 : ByteStr} (h : NoColon b) :
    b ≠ serverPrefixedStr s b2 := by
  intro he
  apply h
  rw [he]
  unfold serverPrefixedStr
  simp

theorem countBase_append_single (done : List SrcTriple) (tr : SrcTriple) (b : ByteStr) :
    countBase (done ++ [tr]) b = countBase done b + (if tr.2.1 = b then 1 else 0) := by
  unfold countBase
  rw [List.filter_append, List.length_append]
  congr 1
  rw [List.filter]
  by_cases h : tr.2.1 = b
  · have : (tr.2.1 == b) = true := by simp [h]
    rw [this, if_pos h]
    rfl
  · have : (tr.2.1 == b) = false := by simp [h]
    rw [this, if_neg h]
    rfl

theorem countBase_pos {done : List SrcTriple} {tr : SrcTriple} (h : tr ∈ done) :
    1 ≤ countBase done tr.2.1 := by
  unfold countBase
  have : tr ∈ done.filter (fun tr2 => tr2.2.1 == tr.2.1) := by
    rw [List.mem_filter]
    exact ⟨h, by simp⟩
  exact List.length_pos.mpr (List.ne_nil_of_mem this)

theorem countBase_one_unique {done : List SrcTriple} {b : ByteStr}
    (h : countBase done b = 1) :
    ∃ tr0 ∈ done, tr0.2.1 = b ∧ ∀ tr1 ∈ done, tr1.2.1 = b → tr1 = tr0 := by
  unfold countBase at h
  rcases List.length_eq_one.mp h with ⟨tr0, hf⟩
  have hmem : tr0 ∈ done.filter (fun tr => tr.2.1 == b) := by rw [hf]; simp
  rw [List.mem_filter] at hmem
  refine ⟨tr0, hmem.1, by simpa using hmem.2, ?_⟩
  intro tr1 h1 hb1
  have : tr1 ∈ done.filter (fun tr => tr.2.1 == b) := by
    rw [List.mem_filter]
    exact ⟨h1, by simp [hb1]⟩
  rw [hf] at this
  simpa using this

/-- The invariant characterizing the registry after registering `done`. -/
structure AggInv (done : List SrcTriple) (st : AggState) : Prop where
  coll : ∀ b, b ∈ st.toolCollisions ↔ 2 ≤ countBase done b
  bare : ∀ tr ∈ done, countBase done tr.2.1 = 1 →
    mapGet tr.2.1 st.tools = some (bareMapping tr)
  pref : ∀ tr ∈ done, 2 ≤ countBase done tr.2.1 →
    mapGet (serverPrefixedStr tr.1 tr.2.1) st.tools = some (prefMapping tr)
  complete : ∀ k m, mapGet k st.tools = some m →
    ∃ tr ∈ done,
      (countBase done tr.2.1 = 1 ∧ k = tr.2.1 ∧ m = bareMapping tr) ∨
      (2 ≤ countBase done tr.2.1 ∧ k = serverPrefixedStr tr.1 tr.2.1 ∧ m = prefMapping tr)
  nodupKeys : (st.tools.map Prod.fst).Nodup

theorem registerTripleStep_new (st : AggState) (tr : SrcTriple)
    (hget : mapGet tr.2.1 st.tools = none) (hnc : tr.2.1 ∉ st.toolCollisions) :
    registerTripleStep st tr =
      ⟨mapInsert tr.2.1 (mkToolMapping tr.1 tr.2.2 tr.2.1) st.tools, st.toolCollisions⟩ := by
  simp only [registerTripleStep, hget]
  rw [if_neg hnc]
  simp [hget]

theorem registerTripleStep_known_coll (st : AggState) (tr : SrcTriple)
    (hget : mapGet tr.2.1 st.tools = none) (hc : tr.2.1 ∈ st.toolCollisions)
    (hgetp : mapGet (serverPrefixedStr tr.1 tr.2.1) st.tools = none) :
    registerTripleStep st tr =
      ⟨mapInsert (serverPrefixedStr tr.1 tr.2.1)
         (mkToolMapping tr.1 tr.2.2 (serverPrefixedStr tr.1 tr.2.1)) st.tools,
       st.toolCollisions⟩ := by
  simp only [registerTripleStep, hget]
  rw [if_pos hc]
  simp [hgetp]

theorem registerTripleStep_first_coll (st : AggState) (tr : SrcTriple)
    (existing : ToolMapping) (hget : mapGet tr.2.1 st.tools = some existing)
    (hne : existing.server ≠ tr.1)
    (hgetp : mapGet (serverPrefixedStr tr.1 tr.2.1)
      (mapInsert (serverPrefixedStr existing.server existing.exposedName)
        { existing with exposedName := serverPrefixedStr existing.server existing.exposedName }
        (mapRemove tr.2.1 st.tools)) = none) :
    registerTripleStep st tr =
      ⟨mapInsert (serverPrefixedStr tr.1 tr.2.1)
         (mkToolMapping tr.1 tr.2.2 (serverPrefixedStr tr.1 tr.2.1))
         (mapInsert (serverPrefixedStr existing.server existing.exposedName)
           { existing with exposedName := serverPrefixedStr existing.server existing.exposedName }
           (mapRemove tr.2.1 st.tools)),
       collInsert tr.2.1 st.toolCollisions⟩ := by
  simp only [registerTripleStep, hget]
  have hbool : (existing.server != tr.1) = true := by
    simp only [bne_iff_ne, ne_eq]
    exact hne
  rw [hbool]
  simp [hgetp]

theorem mapGet_base_none {done : List SrcTriple} {st : AggState} (hinv : AggInv done st)
    {b : ByteStr} (hb : NoColon b) (hcount : countBase done b ≠ 1) :
    mapGet b st.tools = none := by
  cases hg : mapGet b st.tools with
  | none => rfl
  | some m =>
    rcases hinv.complete b m hg with ⟨tr1, hmem, hcase | hcase⟩
    · rcases hcase with ⟨hc1, hk, _⟩
      rw [← hk] at hc1
      exact absurd hc1 hcount
    · rcases hcase with ⟨_, hk, _⟩
      exact absurd hk (bare_ne_pref hb)

theorem mapGet_pref_none {done : List SrcTriple} {st : AggState} (hinv : AggInv done st)
    {s b : ByteStr} (hs : NoColon s)
    (hcolDone : ∀ tr1 ∈ done, NoColon tr1.1 ∧ NoColon tr1.2.1)
    (hfresh : ∀ tr1 ∈ done, ¬(tr1.1 = s ∧ tr1.2.1 = b)) :
    mapGet (serverPrefixedStr s b) st.tools = none := by
  cases hg : mapGet (serverPrefixedStr s b) st.tools with
  | none => rfl
  | some m =>
    rcases hinv.complete _ m hg with ⟨tr1, hmem, hcase | hcase⟩
    · rcases hcase with ⟨_, hk, _⟩
      exact absurd hk.symm (bare_ne_pref (hcolDone tr1 hmem).2)
    · rcases hcase with ⟨_, hk, _⟩
      have hinj := serverPrefixedStr_inj hs (hcolDone tr1 hmem).1 hk
      exact (hfresh tr1 hmem ⟨hinj.1.symm, hinj.2.symm⟩).elim

theorem registerTripleStep_inv_case0 {done : List SrcTriple} {st : AggState}
    {s b : ByteStr} {t : ToolInfo}
    (hcolDone : ∀ tr1 ∈ done, NoColon tr1.1 ∧ NoColon tr1.2.1)
    (hcolB : NoColon b)
    (hinv : AggInv done st) (hc : countBase done b = 0) :
    AggInv (done ++ [(s, b, t)]) (registerTripleStep st (s, b, t)) := by
  have hget : mapGet b st.tools = none := mapGet_base_none hinv hcolB (by omega)
  have hnc : b ∉ st.toolCollisions := by
    intro hmem
    have := (hinv.coll b).mp hmem
    omega
  rw [registerTripleStep_new st (s, b, t) hget hnc]
  refine ⟨?_, ?_, ?_, ?_, ?_⟩
  · intro x
    show x ∈ st.toolCollisions ↔ _
    rw [countBase_append_single]
    by_cases hx : b = x
    · subst hx
      show b ∈ st.toolCollisions ↔ 2 ≤ countBase done b + (if b = b then 1 else 0)
      rw [if_pos rfl, hc]
      constructor
      · intro hmem; exact absurd hmem hnc
      · intro h2; omega
    · show _ ↔ 2 ≤ countBase done x + (if b = x then 1 else 0)
      rw [if_neg hx]
      simpa using hinv.coll x
  · intro tr1 hmem hcount
    rw [countBase_append_single] at hcount
    rcases List.mem_append.mp hmem with hmem1 | hmem1
    · by_cases hb1 : tr1.2.1 = b
      · have hpos := countBase_pos hmem1
        rw [hb1, hc] at hpos
        omega
      · have hite : ((s, b, t) : SrcTriple).2.1 = tr1.2.1 ↔ False := by
          constructor
          · intro he; exact hb1 he.symm
          · intro hfalse; exact hfalse.elim
        rw [if_neg (fun he => hb1 he.symm)] at hcount
        show mapGet tr1.2.1 (mapInsert b (mkToolMapping s t b) st.tools) = _
        rw [mapGet_insert_ne hb1]
        exact hinv.bare tr1 hmem1 (by omega)
    · rw [List.mem_singleton] at hmem1
      subst hmem1
      show mapGet b (mapInsert b (mkToolMapping s t b) st.tools) = _
      rw [mapGet_insert_self]
      rfl
  · intro tr1 hmem h2
    rw [countBase_append_single] at h2
    rcases List.mem_append.mp hmem with hmem1 | hmem1
    · by_cases hb1 : tr1.2.1 = b
      · have hpos := countBase_pos hmem1
        rw [hb1, hc] at hpos
        omega
      · rw [if_neg (fun he => hb1 he.symm)] at h2
        show mapGet (serverPrefixedStr tr1.1 tr1.2.1)
          (mapInsert b (mkToolMapping s t b) st.tools) = _
        rw [mapGet_insert_ne (fun he => (bare_ne_pref hcolB) he.symm)]
        exact hinv.pref tr1 hmem1 (by omega)
    · rw [List.mem_singleton] at hmem1
      subst hmem1
      rw [if_pos rfl, hc] at h2
      omega
  · intro k m hk
    by_cases hkb : k = b
    · rw [hkb] at hk
      rw [mapGet_insert_self] at hk
      refine ⟨(s, b, t), by simp, Or.inl ⟨?_, hkb, ?_⟩⟩
      · rw [countBase_append_single, hc, if_pos rfl]
      · injection hk with hk2
        rw [← hk2]
        rfl
    · rw [mapGet_insert_ne hkb] at hk
      rcases hinv.complete k m hk with ⟨tr1, hmem1, hcase | hcase⟩
      · rcases hcase with ⟨hc1, hkk, hm⟩
        have hb1 : tr1.2.1 ≠ b := by rw [← hkk]; exact hkb
        refine ⟨tr1, by simp [hmem1], Or.inl ⟨?_, hkk, hm⟩⟩
        rw [countBase_append_single, if_neg (fun he => hb1 he.symm)]
        omega
      · rcases hcase with ⟨hc2, hkk, hm⟩
        refine ⟨tr1, by simp [hmem1], Or.inr ⟨?_, hkk, hm⟩⟩
        rw [countBase_append_single]
        by_cases hb1 : b = tr1.2.1
        · rw [if_pos hb1]; omega
        · rw [if_neg hb1]; omega
  · exact mapInsert_keys_nodup _ _ _ hinv.nodupKeys

theorem registerTripleStep_inv_case2 {done : List SrcTriple} {st : AggState}
    {s b : ByteStr} {t : ToolInfo}
    (hfresh : ∀ tr1 ∈ done, ¬(tr1.1 = s ∧ tr1.2.1 = b))
    (hcolDone : ∀ tr1 ∈ done, NoColon tr1.1 ∧ NoColon tr1.2.1)
    (hcolS : NoColon s) (hcolB : NoColon b)
    (hinv : AggInv done st) (hc : 2 ≤ countBase done b) :
    AggInv (done ++ [(s, b, t)]) (registerTripleStep st (s, b, t)) := by
  have hget : mapGet b st.tools = none := mapGet_base_none hinv hcolB (by omega)
  have hcoll : b ∈ st.toolCollisions := (hinv.coll b).mpr hc
  have hgetp : mapGet (serverPrefixedStr s b) st.tools = none :=
    mapGet_pref_none hinv hcolS hcolDone hfresh
  rw [registerTripleStep_known_coll st (s, b, t) hget hcoll hgetp]
  refine ⟨?_, ?_, ?_, ?_, ?_⟩
  · intro x
    show x ∈ st.toolCollisions ↔ _
    rw [countBase_append_single]
    by_cases hx : b = x
    · subst hx
      rw [if_pos rfl]
      constructor
      · intro _; omega
      · intro _; exact hcoll
    · rw [if_neg hx]
      simpa using hinv.coll x
  · intro tr1 hmem hcount
    rw [countBase_append_single] at hcount
    rcases List.mem_append.mp hmem with hmem1 | hmem1
    · by_cases hb1 : tr1.2.1 = b
      · rw [hb1, if_pos rfl] at hcount
        exfalso
        omega
      · rw [if_neg (fun he => hb1 he.symm)] at hcount
        rw [mapGet_insert_ne (fun he => (bare_ne_pref (hcolDone tr1 hmem1).2) he)]
        exact hinv.bare tr1 hmem1 (by omega)
    · rw [List.mem_singleton] at hmem1
      subst hmem1
      rw [if_pos rfl] at hcount
      exfalso
      have hcount2 : countBase done b + 1 = 1 := hcount
      omega
  · intro tr1 hmem h2
    rcases List.mem_append.mp hmem with hmem1 | hmem1
    · by_cases heq : serverPrefixedStr tr1.1 tr1.2.1 = serverPrefixedStr s b
      · have hinj := serverPrefixedStr_inj (hcolDone tr1 hmem1).1 hcolS heq
        exact (hfresh tr1 hmem1 ⟨hinj.1, hinj.2⟩).elim
      · rw [mapGet_insert_ne heq]
        apply hinv.pref tr1 hmem1
        rw [countBase_append_single] at h2
        by_cases hb1 : tr1.2.1 = b
        · rw [hb1]; exact hc
        · rw [if_neg (fun he => hb1 he.symm)] at h2
          omega
    · rw [List.mem_singleton] at hmem1
      subst hmem1
      rw [mapGet_insert_self]
      rfl
  · intro k m hk
    by_cases hkp : k = serverPrefixedStr s b
    · rw [hkp] at hk
      rw [mapGet_insert_self] at hk
      refine ⟨(s, b, t), by simp, Or.inr ⟨?_, hkp, ?_⟩⟩
      · show 2 ≤ countBase (done ++ [(s, b, t)]) b
        rw [countBase_append_single, if_pos rfl]
        omega
      · injection hk with hk2
        rw [← hk2]
        rfl
    · rw [mapGet_insert_ne hkp] at hk
      rcases hinv.complete k m hk with ⟨tr1, hmem1, hcase | hcase⟩
      · rcases hcase with ⟨hc1, hkk, hm⟩
        have hb1 : tr1.2.1 ≠ b := fun he => by rw [he] at hc1; omega
        refine ⟨tr1, by simp [hmem1], Or.inl ⟨?_, hkk, hm⟩⟩
        rw [countBase_append_single, if_neg (fun he => hb1 he.symm)]
        omega
      · rcases hcase with ⟨hc2, hkk, hm⟩
        refine ⟨tr1, by simp [hmem1], Or.inr ⟨?_, hkk, hm⟩⟩
        rw [countBase_append_single]
        by_cases hb1 : b = tr1.2.1
        · rw [if_pos hb1]; omega
        · rw [if_neg hb1]; omega
  · exact mapInsert_keys_nodup _ _ _ hinv.nodupKeys

theorem registerTripleStep_inv_case1 {done : List SrcTriple} {st : AggState}
    {s b : ByteStr} {t : ToolInfo}
    (hfresh : ∀ tr1 ∈ done, ¬(tr1.1 = s ∧ tr1.2.1 = b))
    (hcolDone : ∀ tr1 ∈ done, NoColon tr1.1 ∧ NoColon tr1.2.1)
    (hcolS : NoColon s) (hcolB : NoColon b)
    (hinv : AggInv done st) (hc : countBase done b = 1) :
    AggInv (done ++ [(s, b, t)]) (registerTripleStep st (s, b, t)) := by
  rcases countBase_one_unique hc with ⟨tr0, htr0mem, htr0b, huniq⟩
  have hcolT0 := hcolDone tr0 htr0mem
  have hget : mapGet b st.tools = some (bareMapping tr0) := by
    have hb := hinv.bare tr0 htr0mem (by rw [htr0b]; exact hc)
    rw [htr0b] at hb
    exact hb
  have hne0 : tr0.1 ≠ s := fun he => hfresh tr0 htr0mem ⟨he, htr0b⟩
  have hnc : b ∉ st.toolCollisions := by
    intro hmem
    have := (hinv.coll b).mp hmem
    omega
  have hprefne : serverPrefixedStr s b ≠ serverPrefixedStr tr0.1 tr0.2.1 := by
    intro he
    have hinj := serverPrefixedStr_inj hcolS hcolT0.1 he
    exact hne0 hinj.1.symm
  have hgetp : mapGet (serverPrefixedStr s b)
      (mapInsert (serverPrefixedStr tr0.1 tr0.2.1) (prefMapping tr0)
        (mapRemove b st.tools)) = none := by
    rw [mapGet_insert_ne hprefne]
    rw [mapGet_remove_ne (fun he => (bare_ne_pref hcolB) he.symm)]
    exact mapGet_pref_none hinv hcolS hcolDone hfresh
  have hstep : registerTripleStep st (s, b, t) =
      ⟨mapInsert (serverPrefixedStr s b) (mkToolMapping s t (serverPrefixedStr s b))
         (mapInsert (serverPrefixedStr tr0.1 tr0.2.1) (prefMapping tr0)
           (mapRemove b st.tools)),
       collInsert b st.toolCollisions⟩ := by
    rw [registerTripleStep_first_coll st (s, b, t) (bareMapping tr0) hget hne0 hgetp]
    rfl
  have hcoll2 : collInsert b st.toolCollisions = b :: st.toolCollisions := by
    unfold collInsert
    rw [if_neg hnc]
  rw [hstep, hcoll2]
  refine ⟨?_, ?_, ?_, ?_, ?_⟩
  · intro x
    show x ∈ b :: st.toolCollisions ↔ _
    rw [countBase_append_single]
    by_cases hx : b = x
    · subst hx
      show b ∈ b :: st.toolCollisions ↔ 2 ≤ countBase done b + (if b = b then 1 else 0)
      rw [if_pos rfl, hc]
      constructor
      · intro _; omega
      · intro _; exact List.mem_cons_self b st.toolCollisions
    · show _ ↔ 2 ≤ countBase done x + (if b = x then 1 else 0)
      rw [if_neg hx]
      rcases hinv.coll x with ⟨hmp, hmpr⟩
      constructor
      · intro hmem
        rcases List.mem_cons.mp hmem with he | hmem
        · exact absurd he.symm hx
        · have := hmp hmem; omega
      · intro h2
        exact List.mem_cons.mpr (Or.inr (hmpr (by omega)))
  · intro tr1 hmem hcount
    rw [countBase_append_single] at hcount
    rcases List.mem_append.mp hmem with hmem1 | hmem1
    · by_cases hb1 : tr1.2.1 = b
      · rw [hb1, if_pos rfl] at hcount
        exfalso
        omega
      · rw [if_neg (fun he => hb1 he.symm)] at hcount
        rw [mapGet_insert_ne (fun he => (bare_ne_pref (hcolDone tr1 hmem1).2) he)]
        rw [mapGet_insert_ne (fun he => (bare_ne_pref (hcolDone tr1 hmem1).2) he)]
        rw [mapGet_remove_ne hb1]
        exact hinv.bare tr1 hmem1 (by omega)
    · rw [List.mem_singleton] at hmem1
      subst hmem1
      rw [if_pos rfl] at hcount
      exfalso
      have hcount2 : countBase done b + 1 = 1 := hcount
      omega
  · intro tr1 hmem h2
    rcases List.mem_append.mp hmem with hmem1 | hmem1
    · by_cases hb1 : tr1.2.1 = b
      · have htr1 : tr1 = tr0 := huniq tr1 hmem1 hb1
        rw [htr1]
        rw [mapGet_insert_ne (fun he => hprefne he.symm)]
        rw [mapGet_insert_self]
      · have hne1 : serverPrefixedStr tr1.1 tr1.2.1 ≠ serverPrefixedStr s b := by
          intro he
          have hinj := serverPrefixedStr_inj (hcolDone tr1 hmem1).1 hcolS he
          exact hb1 hinj.2
        have hne2 : serverPrefixedStr tr1.1 tr1.2.1 ≠ serverPrefixedStr tr0.1 tr0.2.1 := by
          intro he
          have hinj := serverPrefixedStr_inj (hcolDone tr1 hmem1).1 hcolT0.1 he
          exact hb1 (hinj.2.trans htr0b)
        rw [countBase_append_single] at h2
        rw [if_neg (fun he => hb1 he.symm)] at h2
        rw [mapGet_insert_ne hne1, mapGet_insert_ne hne2]
        rw [mapGet_remove_ne (fun he => (bare_ne_pref hcolB) he.symm)]
        exact hinv.pref tr1 hmem1 (by omega)
    · rw [List.mem_singleton] at hmem1
      subst hmem1
      rw [mapGet_insert_self]
      rfl
  · intro k m hk
    by_cases hk1 : k = serverPrefixedStr s b
    · rw [hk1, mapGet_insert_self] at hk
      refine ⟨(s, b, t), by simp, Or.inr ⟨?_, hk1, ?_⟩⟩
      · show 2 ≤ countBase (done ++ [(s, b, t)]) b
        rw [countBase_append_single, if_pos rfl]
        omega
      · injection hk with hk2
        rw [← hk2]
        rfl
    · rw [mapGet_insert_ne hk1] at hk
      by_cases hk2 : k = serverPrefixedStr tr0.1 tr0.2.1
      · rw [hk2, mapGet_insert_self] at hk
        refine ⟨tr0, by simp [htr0mem], Or.inr ⟨?_, hk2, ?_⟩⟩
        · rw [countBase_append_single, htr0b, if_pos rfl]
          omega
        · injection hk with hk2m
          rw [← hk2m]
      · rw [mapGet_insert_ne hk2] at hk
        by_cases hkb : k = b
        · rw [hkb, mapGet_remove_self] at hk
          cases hk
        · rw [mapGet_remove_ne hkb] at hk
          rcases hinv.complete k m hk with ⟨tr1, hmem1, hcase | hcase⟩
          · rcases hcase with ⟨hc1, hkk, hm⟩
            have hb1 : tr1.2.1 ≠ b := by
              intro he
              exact hkb (by rw [hkk, he])
            refine ⟨tr1, by simp [hmem1], Or.inl ⟨?_, hkk, hm⟩⟩
            rw [countBase_append_single, if_neg (fun he => hb1 he.symm)]
            omega
          · rcases hcase with ⟨hc2, hkk, hm⟩
            have hb1 : tr1.2.1 ≠ b := by
              intro he
              rw [he] at hc2
              omega
            refine ⟨tr1, by simp [hmem1], Or.inr ⟨?_, hkk, hm⟩⟩
            rw [countBase_append_single, if_neg (fun he => hb1 he.symm)]
            omega
  · exact mapInsert_keys_nodup _ _ _ (mapInsert_keys_nodup _ _ _
      ((mapRemove_keys_sublist b st.tools).nodup hinv.nodupKeys))

theorem aggInv_nil : AggInv [] ⟨[], []⟩ := by
  refine ⟨?_, ?_, ?_, ?_, ?_⟩
  · intro x
    simp [countBase]
  · intro tr hmem
    cases hmem
  · intro tr hmem
    cases hmem
  · intro k m hk
    simp [mapGet] at hk
  · exact List.nodup_nil

theorem registerTripleStep_inv {done : List SrcTriple} {st : AggState} {tr : SrcTriple}
    (hfresh : ∀ tr1 ∈ done, ¬(tr1.1 = tr.1 ∧ tr1.2.1 = tr.2.1))
    (hcolS : NoColon tr.1) (hcolB : NoColon tr.2.1)
    (hcolDone : ∀ tr1 ∈ done, NoColon tr1.1 ∧ NoColon tr1.2.1)
    (hinv : AggInv done st) :
    AggInv (done ++ [tr]) (registerTripleStep st tr) := by
  rcases tr with ⟨s, b, t⟩
  by_cases h0 : countBase done b = 0
  · exact registerTripleStep_inv_case0 hcolDone hcolB hinv h0
  · by_cases h1 : countBase done b = 1
    · exact registerTripleStep_inv_case1 hfresh hcolDone hcolS hcolB hinv h1
    · exact registerTripleStep_inv_case2 hfresh hcolDone hcolS hcolB hinv (by omega)

/-- The (server, base name) pair of a triple, used for freshness. -/
def srcPair (tr : SrcTriple) : ByteStr × ByteStr := (tr.1, tr.2.1)

theorem registerTriples_inv_aux (rest : List SrcTriple) :
    ∀ (done : List SrcTriple) (st : AggState),
      ((done ++ rest).map srcPair).Nodup →
      (∀ tr ∈ done ++ rest, NoColon tr.1 ∧ NoColon tr.2.1) →
      AggInv done st →
      AggInv (done ++ rest) (rest.foldl registerTripleStep st) := by
  induction rest with
  | nil =>
    intro done st _ _ hinv
    simpa using hinv
  | cons tr rs ih =>
    intro done st hnodup hcol hinv
    rw [List.foldl_cons]
    have hre : done ++ tr :: rs = (done ++ [tr]) ++ rs := by simp
    have hfresh : ∀ tr1 ∈ done, ¬(tr1.1 = tr.1 ∧ tr1.2.1 = tr.2.1) := by
      intro tr1 hmem1 hpair
      rcases hpair with ⟨he1, he2⟩
      rw [List.map_append, List.nodup_append] at hnodup
      have hmemmap : srcPair tr1 ∈ done.map srcPair := List.mem_map_of_mem srcPair hmem1
      have hnot := hnodup.2.2 hmemmap
      apply hnot
      rw [List.map_cons]
      apply List.mem_cons.mpr
      left
      show (tr1.1, tr1.2.1) = (tr.1, tr.2.1)
      rw [he1, he2]
    have hcolT : NoColon tr.1 ∧ NoColon tr.2.1 :=
      hcol tr (by simp)
    have hstep := registerTripleStep_inv hfresh hcolT.1 hcolT.2
      (fun tr1 h => hcol tr1 (List.mem_append.mpr (Or.inl h))) hinv
    have hres := ih (done ++ [tr]) (registerTripleStep st tr)
      (by rw [← hre]; exact hnodup)
      (by rw [← hre]; exact hcol) hstep
    rw [hre]
    exact hres

theorem registerAll_inv (regs : List Registration)
    (hnodup : ((regTriples regs).map srcPair).Nodup)
    (hcol : ∀ tr ∈ regTriples regs, NoColon tr.1 ∧ NoColon tr.2.1) :
    AggInv (regTriples regs) (registerAll regs) := by
  rw [registerAll_eq_fold]
  have hres := registerTriples_inv_aux (regTriples regs) [] ⟨[], []⟩
    (by simpa using hnodup) (by simpa using hcol) aggInv_nil
  simpa using hres

theorem exists_of_countBase_pos {done : List SrcTriple} {b : ByteStr}
    (h : 1 ≤ countBase done b) : ∃ tr ∈ done, tr.2.1 = b := by
  unfold countBase at h
  have hne : done.filter (fun tr => tr.2.1 == b) ≠ [] := by
    intro he
    rw [he] at h
    simp at h
  rcases List.exists_mem_of_ne_nil _ hne with ⟨tr, htr⟩
  rw [List.mem_filter] at htr
  exact ⟨tr, htr.1, by simpa using htr.2⟩

/-- C2 (amended): if every registered (server, post-transform base name) pair is
fresh and server and tool names are colon-free, then for every base name `b`
claimed by at least two sources, the registry has no entry under the bare name
`b`, it has one entry under the prefixed name `server:b` for each claiming
triple (recording that server and the original tool name), and any registry key
holding that triple's mapping is exactly the prefixed key, so there is exactly
one entry per (source, original) pair. -/
theorem register_tools_collision_determinism
    (regs : List Registration)
    (hnodup : ((regTriples regs).map srcPair).Nodup)
    (hcol : ∀ tr ∈ regTriples regs, NoColon tr.1 ∧ NoColon tr.2.1)
    (b : ByteStr) (hb : 2 ≤ countBase (regTriples regs) b) :
    mapGet b (registerAll regs).tools = none ∧
    (∀ tr ∈ regTriples regs, tr.2.1 = b →
      mapGet (serverPrefixedStr tr.1 b) (registerAll regs).tools = some (prefMapping tr)) ∧
    (∀ tr ∈ regTriples regs, tr.2.1 = b →
      ∀ k, mapGet k (registerAll regs).tools = some (prefMapping tr) →
        k = serverPrefixedStr tr.1 b) := by
  have hinv := registerAll_inv regs hnodup hcol
  have hcolB : NoColon b := by
    rcases exists_of_countBase_pos (by omega : 1 ≤ countBase (regTriples regs) b)
      with ⟨tr, hmem, htrb⟩
    rw [← htrb]
    exact (hcol tr hmem).2
  refine ⟨mapGet_base_none hinv hcolB (by omega), ?_, ?_⟩
  · intro tr hmem htrb
    have hp := hinv.pref tr hmem (by rw [htrb]; exact hb)
    rw [htrb] at hp
    exact hp
  · intro tr hmem htrb k hk
    rcases hinv.complete k (prefMapping tr) hk with ⟨tr1, hmem1, hcase | hcase⟩
    · rcases hcase with ⟨_, _, hm⟩
      have hexp : serverPrefixedStr tr.1 tr.2.1 = tr1.2.1 :=
        congrArg ToolMapping.exposedName hm
      exact ((bare_ne_pref (hcol tr1 hmem1).2) hexp.symm).elim
    · rcases hcase with ⟨_, hkk, hm⟩
      have hexp : serverPrefixedStr tr.1 tr.2.1 = serverPrefixedStr tr1.1 tr1.2.1 :=
        congrArg ToolMapping.exposedName hm
      have hinj := serverPrefixedStr_inj (hcol tr hmem).1 (hcol tr1 hmem1).1 hexp
      rw [hkk, ← hinj.1, ← hinj.2, htrb]

/-- A tool with no description or schemas, for concrete registry scenarios. -/
def c2Tool (n : ByteStr) : ToolInfo := ⟨n, none, none, none, none⟩

/-- Two sources both exposing `ping`; the first also exposes a tool literally
named `s2:ping`, which occupies the prefixed key the second source's `ping`
would be moved to. -/
def c2Regs : List Registration :=
  [⟨strBytes "s1", [c2Tool (strBytes "ping"), c2Tool (strBytes "s2:ping")], ⟨[]⟩⟩,
   ⟨strBytes "s2", [c2Tool (strBytes "ping")], ⟨[]⟩⟩]

/-- Two sources both exposing `ping`, with colon-free names. -/
def c2WRegs : List Registration :=
  [⟨strBytes "s1", [c2Tool (strBytes "ping")], ⟨[]⟩⟩,
   ⟨strBytes "s2", [c2Tool (strBytes "ping")], ⟨[]⟩⟩]

/-- Counterexample to C2 as stated: in `c2Regs` the base name `ping` is claimed
by both sources, yet after registration no registry entry at all records the
pair (source `s2`, original `ping`) — its insertion under the prefixed key is
skipped because that key is already taken — so the registry does not contain
exactly one entry per (source, original) pair. -/
theorem register_tools_entry_dropped :
    2 ≤ countBase (regTriples c2Regs) (strBytes "ping") ∧
    (∃ tr ∈ regTriples c2Regs, tr.1 = strBytes "s2" ∧ tr.2.1 = strBytes "ping") ∧
    ∀ kv ∈ (registerAll c2Regs).tools,
      ¬(kv.2.server = strBytes "s2" ∧ kv.2.originalName = strBytes "ping") := by
  decide

theorem register_tools_collision_determinism_witness :
    mapGet (strBytes "ping") (registerAll c2WRegs).tools = none ∧
    (∀ tr ∈ regTriples c2WRegs, tr.2.1 = strBytes "ping" →
      mapGet (serverPrefixedStr tr.1 (strBytes "ping")) (registerAll c2WRegs).tools =
        some (prefMapping tr)) ∧
    (∀ tr ∈ regTriples c2WRegs, tr.2.1 = strBytes "ping" →
      ∀ k, mapGet k (registerAll c2WRegs).tools = some (prefMapping tr) →
        k = serverPrefixedStr tr.1 (strBytes "ping")) :=
  register_tools_collision_determinism c2WRegs (by decide) (by decide)
    (strBytes "ping") (by decide)

/-- C8 (amended): when a tool's post-transform base name occurs in exactly one
source, its registry entry sits under the bare base name with the bare exposed
name; contrary to the claim, no entry is registered under the server-prefixed
key `source:name`; yet routing a lookup of the prefixed form still succeeds,
returning (source, originalName), via the parse-and-scan fallback of
`route_tool`. -/
theorem unique_tool_prefixed_routing (regs : List Registration)
    (hnodup : ((regTriples regs).map srcPair).Nodup)
    (hcol : ∀ tr1 ∈ regTriples regs, NoColon tr1.1 ∧ NoColon tr1.2.1)
    (tr : SrcTriple) (hmem : tr ∈ regTriples regs)
    (h1 : countBase (regTriples regs) tr.2.1 = 1)
    (hsne : tr.1 ≠ []) (hbne : tr.2.1 ≠ []) :
    mapGet tr.2.1 (registerAll regs).tools = some (bareMapping tr) ∧
    mapGet (serverPrefixedStr tr.1 tr.2.1) (registerAll regs).tools = none ∧
    routeTool (registerAll regs) (serverPrefixedStr tr.1 tr.2.1) =
      some (tr.1, tr.2.2.name) := by
  have hinv := registerAll_inv regs hnodup hcol
  have hbare := hinv.bare tr hmem h1
  have hpref_none : mapGet (serverPrefixedStr tr.1 tr.2.1) (registerAll regs).tools = none := by
    cases hg : mapGet (serverPrefixedStr tr.1 tr.2.1) (registerAll regs).tools with
    | none => rfl
    | some m =>
      rcases hinv.complete _ m hg with ⟨tr1, hmem1, hcase | hcase⟩
      · rcases hcase with ⟨_, hk, _⟩
        exact absurd hk.symm (bare_ne_pref (hcol tr1 hmem1).2)
      · rcases hcase with ⟨hc2, hk, _⟩
        have hinj := serverPrefixedStr_inj (hcol tr hmem).1 (hcol tr1 hmem1).1 hk
        rw [← hinj.2] at hc2
        omega
  refine ⟨hbare, hpref_none, ?_⟩
  have hparse : serverPrefixedParse (serverPrefixedStr tr.1 tr.2.1) = some (tr.1, tr.2.1) := by
    unfold serverPrefixedParse serverPrefixedStr
    rw [rsplitOnceBytes_append 58 tr.1 (hcol tr hmem).2]
    dsimp only
    rw [if_neg (by
      intro hor
      rcases hor with h | h
      · exact hsne h
      · exact hbne h)]
  have hmem_entry : (tr.2.1, bareMapping tr) ∈ (registerAll regs).tools := mapGet_mem hbare
  cases hf : (registerAll regs).tools.find?
      (fun kv => kv.2.server == tr.1 && kv.2.exposedName == tr.2.1) with
  | none =>
    have hnone := List.find?_eq_none.mp hf _ hmem_entry
    simp [bareMapping, mkToolMapping] at hnone
  | some kv =>
    have hkvmem := List.mem_of_find?_eq_some hf
    have hkvpred := List.find?_some hf
    simp only [Bool.and_eq_true, beq_iff_eq] at hkvpred
    rcases hkvpred with ⟨hserv, hexp⟩
    have hkget : mapGet kv.1 (registerAll regs).tools = some kv.2 :=
      mem_mapGet hinv.nodupKeys hkvmem
    have hkv2 : kv.2 = bareMapping tr := by
      rcases hinv.complete kv.1 kv.2 hkget with ⟨tr1, hmem1, hcase | hcase⟩
      · rcases hcase with ⟨_, _, hm1⟩
        have hs1 : tr1.1 = tr.1 := by rw [hm1] at hserv; exact hserv
        have hb1 : tr1.2.1 = tr.2.1 := by rw [hm1] at hexp; exact hexp
        have htr1 : tr1 = tr := List.inj_on_of_nodup_map hnodup hmem1 hmem (by
          show (tr1.1, tr1.2.1) = (tr.1, tr.2.1)
          rw [hs1, hb1])
        rw [htr1] at hm1
        exact hm1
      · rcases hcase with ⟨_, _, hm1⟩
        rw [hm1] at hexp
        have hbp : tr.2.1 = serverPrefixedStr tr1.1 tr1.2.1 := hexp.symm
        exact absurd hbp (bare_ne_pref (hcol tr hmem).2)
    simp only [routeTool, hpref_none, hparse, hf, hkv2]
    rfl

/-- One source exposing a single tool `t`: no name collision anywhere. -/
def c8Regs : List Registration := [⟨strBytes "s1", [c2Tool (strBytes "t")], ⟨[]⟩⟩]

/-- Counterexample to C8 as stated: with a single source exposing tool `t`, the
aggregator registers no alias under the prefixed key `s1:t` (the lookup is
`none`), so the claimed server-prefixed alias entry does not exist; routing the
prefixed form nevertheless succeeds, through the fallback scan. -/
theorem unique_tool_no_alias_entry :
    countBase (regTriples c8Regs) (strBytes "t") = 1 ∧
    mapGet (strBytes "s1:t") (registerAll c8Regs).tools = none ∧
    routeTool (registerAll c8Regs) (strBytes "s1:t") =
      some (strBytes "s1", strBytes "t") :=
  ⟨rfl, rfl, rfl⟩

theorem unique_tool_prefixed_routing_witness :
    mapGet (strBytes "t") (registerAll c8Regs).tools =
      some (bareMapping (strBytes "s1", strBytes "t", c2Tool (strBytes "t"))) ∧
    mapGet (serverPrefixedStr (strBytes "s1") (strBytes "t")) (registerAll c8Regs).tools =
      none ∧
    routeTool (registerAll c8Regs) (serverPrefixedStr (strBytes "s1") (strBytes "t")) =
      some (strBytes "s1", (c2Tool (strBytes "t")).name) :=
  unique_tool_prefixed_routing c8Regs (by decide) (by decide)
    (strBytes "s1", strBytes "t", c2Tool (strBytes "t"))
    (List.mem_singleton.mpr rfl) rfl (by decide) (by decide)

/-- Model of `RetryPolicy` (tool_policy.rs); `backoff_coefficient : f64` is
modelled as a rational. -/
structure RetryPolicy where
  maximumAttempts : Nat
  initialIntervalMs : Nat
  backoffCoefficient : ℚ
  maximumIntervalMs : Option Nat
  nonRetryableErrorTypes : List ByteStr

/-- Model of `ToolPolicy` (tool_policy.rs). -/
structure ToolPolicy where
  tool : ByteStr
  timeoutSecs : Option Nat
  retry : Option RetryPolicy

/-- Model of the two fields of `crate::store::Profile` read by
`tool_call_timeout_secs_for` (`store.rs` is not in the sources; the fields and
their types are taken from their uses in tool_call.rs). -/
structure Profile where
  toolCallTimeoutSecs : Option Nat
  toolPolicies : List ToolPolicy

/-- Model of `tool_call_timeout_secs_for` (tool_call.rs). `crate::timeouts` is
not in the sources, so its two constants `tool_call_timeout_default_secs` and
`tool_call_timeout_max_secs` are taken as the parameters `defaultSecs` and
`maxSecs`. -/
def tool_call_timeout_secs_for (defaultSecs maxSecs : Nat) (profile : Profile)
    (toolRef : ByteStr) : Nat :=
  let secs1 :=
    match profile.toolCallTimeoutSecs with
    | some v => if 0 < v then min v maxSecs else defaultSecs
    | none => defaultSecs
  let secs2 :=
    match profile.toolPolicies.find? (fun p => p.tool == toolRef) with
    | some p =>
      match p.timeoutSecs with
      | some v => if 0 < v then min v maxSecs else secs1
      | none => secs1
    | none => secs1
  max secs2 1

/-- Modelled from the spec: the claimed resolution formula
`min(max(perToolTimeout, profileTimeout, systemDefault), systemMax)`, floored
at 1 second. -/
def specTimeoutFormula (defaultSecs maxSecs perTool profileT : Nat) : Nat :=
  max (min (max perTool (max profileT defaultSecs)) maxSecs) 1

/-- C1 (amended): the effective timeout is resolved by precedence, not by
taking the largest value: a positive per-tool timeout (clamped at the system
maximum, floored at 1) wins outright; otherwise a positive profile timeout
(clamped, floored) applies; otherwise the system default (floored at 1). -/
theorem tool_call_timeout_precedence (defaultSecs maxSecs : Nat) (profile : Profile)
    (toolRef : ByteStr) :
    (∀ p, profile.toolPolicies.find? (fun q => q.tool == toolRef) = some p →
      ∀ v, p.timeoutSecs = some v → 0 < v →
        tool_call_timeout_secs_for defaultSecs maxSecs profile toolRef =
          max (min v maxSecs) 1) ∧
    (profile.toolPolicies.find? (fun q => q.tool == toolRef) = none →
      ∀ w, profile.toolCallTimeoutSecs = some w → 0 < w →
        tool_call_timeout_secs_for defaultSecs maxSecs profile toolRef =
          max (min w maxSecs) 1) ∧
    (profile.toolPolicies.find? (fun q => q.tool == toolRef) = none →
      profile.toolCallTimeoutSecs = none →
      tool_call_timeout_secs_for defaultSecs maxSecs profile toolRef =
        max defaultSecs 1) := by
  refine ⟨?_, ?_, ?_⟩
  · intro p hfind v hv hpos
    simp only [tool_call_timeout_secs_for, hfind, hv, if_pos hpos]
  · intro hfind w hw hpos
    simp only [tool_call_timeout_secs_for, hfind, hw, if_pos hpos]
  · intro hfind hw
    simp only [tool_call_timeout_secs_for, hfind, hw]

/-- A profile with both a profile-level timeout (100s) and a per-tool timeout
(5s) for tool `s1:t`. -/
def c1Profile : Profile :=
  ⟨some 100, [⟨strBytes "s1:t", some 5, none⟩]⟩

/-- Counterexample to C1 as stated: with system default 30s, system max 600s,
profile timeout 100s and per-tool timeout 5s, the code resolves 5s (the
per-tool value overrides), while the claimed formula would resolve 100s (the
largest of the three, clamped). -/
theorem tool_call_timeout_not_max :
    tool_call_timeout_secs_for 30 600 c1Profile (strBytes "s1:t") = 5 ∧
    specTimeoutFormula 30 600 5 100 = 100 ∧
    tool_call_timeout_secs_for 30 600 c1Profile (strBytes "s1:t") ≠
      specTimeoutFormula 30 600 5 100 := by
  refine ⟨rfl, rfl, ?_⟩
  decide

/-- A profile with only a profile-level timeout. -/
def c1ProfileNoPolicy : Profile := ⟨some 100, []⟩

/-- A profile with no timeout configuration. -/
def c1ProfileEmpty : Profile := ⟨none, []⟩

theorem tool_call_timeout_precedence_witness :
    tool_call_timeout_secs_for 30 600 c1Profile (strBytes "s1:t") = max (min 5 600) 1 ∧
    tool_call_timeout_secs_for 30 600 c1ProfileNoPolicy (strBytes "s1:t") =
      max (min 100 600) 1 ∧
    tool_call_timeout_secs_for 30 600 c1ProfileEmpty (strBytes "s1:t") = max 30 1 :=
  ⟨(tool_call_timeout_precedence 30 600 c1Profile (strBytes "s1:t")).1
      ⟨strBytes "s1:t", some 5, none⟩ rfl 5 rfl (by decide),
   (tool_call_timeout_precedence 30 600 c1ProfileNoPolicy (strBytes "s1:t")).2.1
      rfl 100 rfl (by decide),
   (tool_call_timeout_precedence 30 600 c1ProfileEmpty (strBytes "s1:t")).2.2 rfl rfl⟩

/-- Model of `retry_policy_disallows` (tool_call.rs). -/
def retry_policy_disallows (policy : RetryPolicy) (category : ByteStr) : Bool :=
  policy.nonRetryableErrorTypes.any (fun t => t == category)

/-- Model of `should_retry_upstream_error` (tool_call.rs); the upstream error
itself is external, so it is represented by its category as computed by
`upstream_error_category` (`none` when that function returns `None`). -/
def should_retry_upstream_error (policy : Option RetryPolicy)
    (category : Option ByteStr) : Bool :=
  match category with
  | none => false
  | some c =>
    match policy with
    | some p => !(retry_policy_disallows p c)
    | none => true

/-- Model of `retry_delay` (tool_call.rs) over rational milliseconds; the f64
finiteness checks of the source are vacuous over ℚ and are dropped. -/
def retry_delay (policy : RetryPolicy) (attempt : Nat) : ℚ :=
  if attempt = 0 then 0
  else
    let e := min (attempt - 1) 30
    if policy.backoffCoefficient ≤ 0 then 0
    else
      let mult := policy.backoffCoefficient ^ e
      if mult ≤ 0 then 0
      else
        let d := (policy.initialIntervalMs : ℚ) * mult
        match policy.maximumIntervalMs with
        | some m => min d (m : ℚ)
        | none => d

/-- The `retry.is_some_and(|p| !retry_policy_disallows(p, "timeout"))` test of
the loop's timeout branch. -/
def timeout_retryable (retry : Option RetryPolicy) : Bool :=
  match retry with
  | some p => !(retry_policy_disallows p (strBytes "timeout"))
  | none => false

/-- One upstream attempt as seen by the loop: how long the POST future runs
and what it returns (`err c` carries the error's category). -/
inductive AttemptRes where
  | ok
  | err (category : Option ByteStr)

structure AttemptSpec where
  dur : ℚ
  res : AttemptRes

/-- Result of the retry loop, counting the POSTs issued from the current point
on: success, a generic JSON-RPC error response, or the dedicated
`upstream_request_timed_out_error` response. -/
inductive RetryOutcome where
  | success (posts : Nat)
  | errorResp (posts : Nat)
  | timeoutResp (posts : Nat)
deriving DecidableEq

/-- Account for the POST issued by the current iteration. -/
def addPost : RetryOutcome → RetryOutcome
  | .success n => .success (n + 1)
  | .errorResp n => .errorResp (n + 1)
  | .timeoutResp n => .timeoutResp (n + 1)

/-- The delay block guarding a scheduled retry (tool_call.rs): zero delays
sleep nothing; otherwise the budget is re-sampled and the loop returns the
timeout error when it is exhausted or does not strictly exceed the delay;
`some t` is the time at which the next iteration starts. -/
def delayGate (policy : RetryPolicy) (deadline : ℚ) (attempt : Nat) (now : ℚ) :
    Option ℚ :=
  let delay := retry_delay policy attempt
  if delay = 0 then some now
  else
    let remaining := max (deadline - now) 0
    if remaining = 0 then none
    else if remaining ≤ delay then none
    else some (now + delay)

/-- The body of one iteration of the `post_upstream_with_retry` loop
(tool_call.rs) over rational time; `env` describes each attempt's POST;
`tokio::time::timeout` completes the future only when its duration is strictly
below the remaining budget, else the attempt times out consuming the whole
remaining budget; `k` is the continuation running the rest of the loop. -/
def retryIter (env : Nat → AttemptSpec) (retry : Option RetryPolicy)
    (maxAttempts : Nat) (deadline : ℚ) (attempt : Nat) (now : ℚ)
    (k : Nat → ℚ → RetryOutcome) : RetryOutcome :=
  let remaining := max (deadline - now) 0
  if remaining = 0 then .timeoutResp 0
  else if (env attempt).dur < remaining then
    match (env attempt).res with
    | .ok => .success 1
    | .err category =>
      if should_retry_upstream_error retry category = false ∨ maxAttempts ≤ attempt then
        .errorResp 1
      else
        match retry with
        | none => addPost (k (attempt + 1) (now + (env attempt).dur))
        | some policy =>
          match delayGate policy deadline attempt (now + (env attempt).dur) with
          | none => .timeoutResp 1
          | some now2 => addPost (k (attempt + 1) now2)
  else
    if maxAttempts ≤ attempt ∨ timeout_retryable retry = false then
      .errorResp 1
    else
      match retry with
      | none => addPost (k (attempt + 1) deadline)
      | some policy =>
        match delayGate policy deadline attempt deadline with
        | none => .timeoutResp 1
        | some now2 => addPost (k (attempt + 1) now2)

def post_upstream_with_retryF (env : Nat → AttemptSpec) (retry : Option RetryPolicy)
    (maxAttempts : Nat) (deadline : ℚ) (fuel attempt : Nat) (now : ℚ) : RetryOutcome :=
  match fuel with
  | 0 => .errorResp 0
  | fuel' + 1 =>
    retryIter env retry maxAttempts deadline attempt now
      (fun a2 t2 => post_upstream_with_retryF env retry maxAttempts deadline fuel' a2 t2)

theorem post_upstream_with_retryF_succ (env : Nat → AttemptSpec)
    (retry : Option RetryPolicy) (maxAttempts : Nat) (deadline : ℚ)
    (fuel attempt : Nat) (now : ℚ) :
    post_upstream_with_retryF env retry maxAttempts deadline (fuel + 1) attempt now =
      retryIter env retry maxAttempts deadline attempt now
        (fun a2 t2 => post_upstream_with_retryF env retry maxAttempts deadline fuel a2 t2) :=
  rfl

theorem retry_delay_nonneg (policy : RetryPolicy) (attempt : Nat) :
    0 ≤ retry_delay policy attempt := by
  unfold retry_delay
  by_cases h0 : attempt = 0
  · rw [if_pos h0]
  · rw [if_neg h0]
    by_cases hc : policy.backoffCoefficient ≤ 0
    · rw [if_pos hc]
    · rw [if_neg hc]
      dsimp only
      by_cases hm : policy.backoffCoefficient ^ min (attempt - 1) 30 ≤ 0
      · rw [if_pos hm]
      · rw [if_neg hm]
        have hd : 0 ≤ (policy.initialIntervalMs : ℚ) *
            policy.backoffCoefficient ^ min (attempt - 1) 30 :=
          mul_nonneg (Nat.cast_nonneg _) (lt_of_not_le hm).le
        cases hmax : policy.maximumIntervalMs with
        | some m => exact le_min hd (Nat.cast_nonneg m)
        | none => exact hd

/-- C6 (amended): in the retry loop, once an attempt fails retryably with
attempts remaining, (1) if the re-sampled remaining budget is at most the
scheduled backoff delay the loop returns the upstream-timeout error having
issued only the one POST of the current iteration; (2) otherwise, for a
nonzero delay, the loop sleeps exactly the delay and re-enters; (3) for a
positive coefficient the delay is `initialIntervalMs * coeff^min(attempt-1,30)`
milliseconds, clamped at `maximumIntervalMs` when set (the exponent is capped
at 30, unlike the claimed uncapped formula). -/
theorem retry_budget_and_backoff (env : Nat → AttemptSpec) (maxAttempts : Nat)
    (deadline : ℚ) (fuel attempt : Nat) (now : ℚ) (policy : RetryPolicy)
    (category : Option ByteStr)
    (hrem : 0 < max (deadline - now) 0)
    (hdur : (env attempt).dur < max (deadline - now) 0)
    (hres : (env attempt).res = .err category)
    (hretry : should_retry_upstream_error (some policy) category = true)
    (hatt : attempt < maxAttempts) :
    (max (deadline - (now + (env attempt).dur)) 0 ≤ retry_delay policy attempt →
      post_upstream_with_retryF env (some policy) maxAttempts deadline
        (fuel + 1 + 1) attempt now = .timeoutResp 1) ∧
    (retry_delay policy attempt ≠ 0 →
      retry_delay policy attempt < max (deadline - (now + (env attempt).dur)) 0 →
      post_upstream_with_retryF env (some policy) maxAttempts deadline
        (fuel + 1 + 1) attempt now =
      addPost (post_upstream_with_retryF env (some policy) maxAttempts deadline
        (fuel + 1) (attempt + 1)
        (now + (env attempt).dur + retry_delay policy attempt))) ∧
    (0 < policy.backoffCoefficient →
      retry_delay policy attempt =
        if attempt = 0 then 0 else
        match policy.maximumIntervalMs with
        | some m => min ((policy.initialIntervalMs : ℚ) *
            policy.backoffCoefficient ^ min (attempt - 1) 30) (m : ℚ)
        | none => (policy.initialIntervalMs : ℚ) *
            policy.backoffCoefficient ^ min (attempt - 1) 30) := by
  have hne0 : ¬ max (deadline - now) 0 = 0 := ne_of_gt hrem
  have hcond : ¬(should_retry_upstream_error (some policy) category = false ∨
      maxAttempts ≤ attempt) := by
    intro h
    rcases h with h | h
    · rw [hretry] at h
      cases h
    · omega
  refine ⟨?_, ?_, ?_⟩
  · intro hle
    rw [post_upstream_with_retryF_succ]
    simp only [retryIter]
    rw [if_neg hne0, if_pos hdur, hres]
    dsimp only
    rw [if_neg hcond]
    by_cases hd0 : retry_delay policy attempt = 0
    · have hgate : delayGate policy deadline attempt (now + (env attempt).dur) =
          some (now + (env attempt).dur) := by
        unfold delayGate
        rw [if_pos hd0]
      rw [hgate]
      dsimp only
      rw [post_upstream_with_retryF_succ]
      simp only [retryIter]
      have h0 : max (deadline - (now + (env attempt).dur)) 0 = 0 :=
        le_antisymm (hle.trans_eq hd0) (le_max_right _ _)
      rw [if_pos h0]
      rfl
    · have hgate : delayGate policy deadline attempt (now + (env attempt).dur) =
          none := by
        unfold delayGate
        rw [if_neg hd0]
        by_cases hr0 : max (deadline - (now + (env attempt).dur)) 0 = 0
        · rw [if_pos hr0]
        · rw [if_neg hr0, if_pos hle]
      rw [hgate]
  · intro hd0 hlt
    rw [post_upstream_with_retryF_succ]
    simp only [retryIter]
    rw [if_neg hne0, if_pos hdur, hres]
    dsimp only
    rw [if_neg hcond]
    have hgate : delayGate policy deadline attempt (now + (env attempt).dur) =
        some (now + (env attempt).dur + retry_delay policy attempt) := by
      unfold delayGate
      rw [if_neg hd0]
      have hr0 : ¬ max (deadline - (now + (env attempt).dur)) 0 = 0 :=
        ne_of_gt (lt_of_le_of_lt (retry_delay_nonneg policy attempt) hlt)
      rw [if_neg hr0, if_neg (not_le.mpr hlt)]
    rw [hgate]
  · intro hc
    unfold retry_delay
    by_cases h0 : attempt = 0
    · rw [if_pos h0, if_pos h0]
    · rw [if_neg h0, if_neg h0]
      rw [if_neg (not_le.mpr hc)]
      rw [if_neg (not_le.mpr (pow_pos hc _))]

/-- Modelled from the spec: backoff delay
`initialIntervalMs * coeff^(attempt-1)`, clamped at `maximumIntervalMs` when
set (no cap on the exponent). -/
def specRetryDelay (policy : RetryPolicy) (attempt : Nat) : ℚ :=
  let d := (policy.initialIntervalMs : ℚ) *
    policy.backoffCoefficient ^ (attempt - 1)
  match policy.maximumIntervalMs with
  | some m => min d (m : ℚ)
  | none => d

/-- A doubling policy with no maximum interval. -/
def c6CapPolicy : RetryPolicy := ⟨40, 1, 2, none, []⟩

/-- Counterexample to C6's delay formula: at attempt 32 the code caps the
exponent at 30 and sleeps `1 * 2^30` ms, while the claimed formula
`initialIntervalMs * coeff^(attempt-1)` gives `1 * 2^31` ms. -/
theorem retry_delay_exp_capped :
    retry_delay c6CapPolicy 32 = 2 ^ 30 ∧
    specRetryDelay c6CapPolicy 32 = 2 ^ 31 ∧
    retry_delay c6CapPolicy 32 ≠ specRetryDelay c6CapPolicy 32 := by
  refine ⟨?_, ?_, ?_⟩
  · unfold retry_delay c6CapPolicy
    norm_num
  · unfold specRetryDelay c6CapPolicy
    norm_num
  · unfold retry_delay specRetryDelay c6CapPolicy
    norm_num

/-- Every attempt takes 1ms and fails with a transport error. -/
def c6Env : Nat → AttemptSpec := fun _ => ⟨1, .err (some (strBytes "transport"))⟩

/-- Up to 3 attempts, 100ms initial interval, doubling, clamped at 250ms. -/
def c6Policy : RetryPolicy := ⟨3, 100, 2, some 250, []⟩

theorem retry_budget_and_backoff_witness :
    post_upstream_with_retryF c6Env (some c6Policy) 3 10 (0 + 1 + 1) 1 0 =
      .timeoutResp 1 :=
  (retry_budget_and_backoff c6Env 3 10 0 1 0 c6Policy (some (strBytes "transport"))
    (by norm_num) (by norm_num [c6Env]) rfl rfl (by norm_num)).1
    (by norm_num [c6Env, c6Policy, retry_delay])

/-- Model of `HeaderMap` (header name to value, lookup by name). -/
abbrev HeaderMap := List (ByteStr × ByteStr)

def headerGet (k : ByteStr) (m : HeaderMap) : Option ByteStr :=
  (m.find? (fun kv => kv.1 == k)).map Prod.snd

def headerRemove (k : ByteStr) (m : HeaderMap) : HeaderMap :=
  m.filter (fun kv => !(kv.1 == k))

/-- Model of `HeaderMap::insert`: replaces any entry with the same name. -/
def headerInsert (k v : ByteStr) (m : HeaderMap) : HeaderMap :=
  (k, v) :: headerRemove k m

theorem headerGet_insert_self (k v : ByteStr) (m : HeaderMap) :
    headerGet k (headerInsert k v m) = some v := by
  simp [headerGet, headerInsert, List.find?]

theorem headerGet_remove_ne {k1 k : ByteStr} (h : k1 ≠ k) (m : HeaderMap) :
    headerGet k1 (headerRemove k m) = headerGet k1 m := by
  induction m with
  | nil => rfl
  | cons kv m ih =>
    unfold headerRemove headerGet
    by_cases hk : kv.1 = k
    · rw [List.filter_cons]
      have hb : (!(kv.1 == k)) = false := by simp [hk]
      rw [hb]
      simp only [Bool.false_eq_true, if_neg (by trivial : ¬ False)]
      have hfind : (kv.1 == k1) = false := by
        simp only [beq_eq_false_iff_ne]
        rw [hk]
        exact fun he => h he.symm
      rw [List.find?]
      rw [hfind]
      exact ih
    · rw [List.filter_cons]
      have hb : (!(kv.1 == k)) = true := by simp [hk]
      rw [hb]
      simp only [if_pos trivial]
      rw [List.find?, List.find?]
      by_cases hk1 : kv.1 = k1
      · have hb2 : (kv.1 == k1) = true := by simp [hk1]
        rw [hb2]
      · have hb2 : (kv.1 == k1) = false := by simp [hk1]
        rw [hb2]
        exact ih

theorem headerGet_insert_ne {k1 k : ByteStr} (h : k1 ≠ k) (v : ByteStr) (m : HeaderMap) :
    headerGet k1 (headerInsert k v m) = headerGet k1 (headerRemove k m) := by
  unfold headerInsert headerGet
  rw [List.find?]
  have hne : (k == k1) = false := by
    simp only [beq_eq_false_iff_ne]
    exact fun he => h he.symm
  rw [hne]

/-- `HOP_HEADER` (upstream.rs). -/
def HOP_HEADER : ByteStr := strBytes "x-unrelated-gateway-hop"

/-- `MAX_HOPS` (upstream.rs). -/
def MAX_HOPS : Nat := 8

/-- The lowercased `AUTHORIZATION` header name. -/
def AUTHORIZATION : ByteStr := strBytes "authorization"

/-- Model of `unrelated_http_tools::config::AuthConfig`. -/
inductive AuthConfig where
  | none
  | query (name value : ByteStr)
  | bearer (token : ByteStr)
  | header (name value : ByteStr)
  | basic (username password : ByteStr)

/-- Standard base64 alphabet (with `+` and `/`). -/
def b64StdChar (i : Nat) : Nat :=
  if i = 62 then 43 else if i = 63 then 47 else b64Char i

/-- Standard padded base64 (`base64::engine::general_purpose::STANDARD`), used
for Basic auth credentials. -/
def b64StdEncode : List Nat → List Nat
  | [] => []
  | [a] => [b64StdChar (a / 4), b64StdChar (a % 4 * 16), 61, 61]
  | [a, b] => [b64StdChar (a / 4), b64StdChar (a % 4 * 16 + b / 16),
      b64StdChar (b % 16 * 4), 61]
  | a :: b :: c :: rest =>
    b64StdChar (a / 4) :: b64StdChar (a % 4 * 16 + b / 16) ::
      b64StdChar (b % 16 * 4 + c / 64) :: b64StdChar (c % 64) ::
      b64StdEncode rest

/-- Model of `build_upstream_headers` (upstream.rs): the hop header is
inserted first (when the hop is positive), then the auth header, which can
therefore replace it; `HeaderValue`/`HeaderName` parse failures are not
modelled (the hop value is always a valid decimal). -/
def build_upstream_headers (auth : Option AuthConfig) (hop : Nat) : HeaderMap :=
  let headers : HeaderMap := []
  let headers := if 0 < hop then headerInsert HOP_HEADER (decBytes hop) headers else headers
  match auth with
  | Option.none => headers
  | some a =>
    match a with
    | .none | .query _ _ => headers
    | .bearer token =>
      headerInsert AUTHORIZATION (strBytes "Bearer " ++ token) headers
    | .header name value => headerInsert name value headers
    | .basic u p =>
      headerInsert AUTHORIZATION
        (strBytes "Basic " ++ b64StdEncode (u ++ strBytes ":" ++ p)) headers

/-- Model of a resolved `UpstreamEndpoint` (url plus optional auth). -/
structure Endpoint where
  url : ByteStr
  auth : Option AuthConfig

/-- Result of `proxy_upstream_tool_call_with_retry`, up to the response
body: the three early error returns, or the header map and loop outcome of
the POST phase. -/
inductive ProxyResult where
  | sessionError
  | endpointError (msg : ByteStr)
  | proxyLoopError
  | posted (headers : HeaderMap) (outcome : RetryOutcome)

def postsOfOutcome : RetryOutcome → Nat
  | .success n => n
  | .errorResp n => n
  | .timeoutResp n => n

/-- Number of upstream POSTs issued by a dispatch. -/
def postsOf : ProxyResult → Nat
  | .posted _ out => postsOfOutcome out
  | _ => 0

/-- Model of `proxy_upstream_tool_call_with_retry` (tool_call.rs): the session
binding and resolved endpoint come from the environment, `env` describes the
POST attempts as in the loop model, time starts at 0 with deadline `timeout`. -/
def proxy_upstream_tool_call_with_retry (retry : Option RetryPolicy)
    (binding : Option Unit) (endpoint : Except ByteStr Endpoint)
    (hop : Nat) (env : Nat → AttemptSpec) (timeout : ℚ) : ProxyResult :=
  let maxAttempts := match retry with | some r => max r.maximumAttempts 1 | Option.none => 1
  match binding with
  | Option.none => .sessionError
  | some _ =>
    match endpoint with
    | .error msg => .endpointError msg
    | .ok ep =>
      if MAX_HOPS ≤ hop then .proxyLoopError
      else
        .posted (build_upstream_headers ep.auth (hop + 1))
          (post_upstream_with_retryF env retry maxAttempts timeout
            (maxAttempts + 1) 1 0)

/-- C7 (amended): with a session binding and a resolved endpoint, a dispatch
whose hop counter has reached `MAX_HOPS` (8) returns the explicit proxy-loop
error and issues no upstream POST; below the cap, provided the endpoint's auth
is not a custom header literally named like the hop header (which would
replace it), the forwarded request carries the hop header incremented by
one. -/
theorem hop_cap_dispatch (retry : Option RetryPolicy) (ep : Endpoint)
    (hop : Nat) (env : Nat → AttemptSpec) (timeout : ℚ) :
    (MAX_HOPS ≤ hop →
      proxy_upstream_tool_call_with_retry retry (some ()) (.ok ep) hop env timeout =
        .proxyLoopError ∧
      postsOf (proxy_upstream_tool_call_with_retry retry (some ()) (.ok ep) hop env
        timeout) = 0) ∧
    (hop < MAX_HOPS →
      (∀ v, ep.auth ≠ some (.header HOP_HEADER v)) →
      ∃ out, proxy_upstream_tool_call_with_retry retry (some ()) (.ok ep) hop env timeout =
          .posted (build_upstream_headers ep.auth (hop + 1)) out ∧
        headerGet HOP_HEADER (build_upstream_headers ep.auth (hop + 1)) =
          some (decBytes (hop + 1))) := by
  constructor
  · intro hge
    unfold proxy_upstream_tool_call_with_retry
    dsimp only
    rw [if_pos hge]
    exact ⟨rfl, rfl⟩
  · intro hlt hauth
    have hpost : proxy_upstream_tool_call_with_retry retry (some ()) (.ok ep) hop env
        timeout =
        .posted (build_upstream_headers ep.auth (hop + 1))
          (post_upstream_with_retryF env retry
            (match retry with | some r => max r.maximumAttempts 1 | Option.none => 1)
            timeout
            ((match retry with | some r => max r.maximumAttempts 1 | Option.none => 1) + 1)
            1 0) := by
      unfold proxy_upstream_tool_call_with_retry
      dsimp only
      rw [if_neg (not_le.mpr hlt)]
    refine ⟨_, hpost, ?_⟩
    · unfold build_upstream_headers
      have hhop : 0 < hop + 1 := Nat.succ_pos hop
      dsimp only
      rw [if_pos hhop]
      cases hao : ep.auth with
      | none => exact headerGet_insert_self _ _ _
      | some a =>
        cases a with
        | none => exact headerGet_insert_self _ _ _
        | query n v => exact headerGet_insert_self _ _ _
        | bearer token =>
          rw [headerGet_insert_ne (by decide) _ _]
          rw [show headerRemove AUTHORIZATION
              (headerInsert HOP_HEADER (decBytes (hop + 1)) []) =
              headerInsert HOP_HEADER (decBytes (hop + 1)) [] from rfl]
          exact headerGet_insert_self _ _ _
        | header n v =>
          have hn : HOP_HEADER ≠ n := by
            intro he
            exact hauth v (by rw [hao, ← he])
          rw [headerGet_insert_ne hn _ _, headerGet_remove_ne hn _]
          exact headerGet_insert_self _ _ _
        | basic u p =>
          rw [headerGet_insert_ne (by decide) _ _]
          rw [show headerRemove AUTHORIZATION
              (headerInsert HOP_HEADER (decBytes (hop + 1)) []) =
              headerInsert HOP_HEADER (decBytes (hop + 1)) [] from rfl]
          exact headerGet_insert_self _ _ _

/-- Counterexample to C7 as stated: below the cap (hop 1), an endpoint whose
auth is a custom header literally named `x-unrelated-gateway-hop` (value `"1"`)
replaces the hop header the gateway just inserted, so the forwarded request
does not carry the incremented hop value `"2"`. -/
theorem hop_header_overwritten :
    1 < MAX_HOPS ∧
    headerGet HOP_HEADER (build_upstream_headers
      (some (.header HOP_HEADER (strBytes "1"))) (1 + 1)) = some (strBytes "1") ∧
    some (strBytes "1") ≠ some (decBytes (1 + 1)) :=
  ⟨by decide, rfl, by decide⟩

/-- Attempts that succeed immediately (never evaluated here). -/
def c7Env : Nat → AttemptSpec := fun _ => ⟨1, .ok⟩

theorem hop_cap_dispatch_witness :
    (proxy_upstream_tool_call_with_retry none (some ()) (.ok ⟨strBytes "u", none⟩) 8
        c7Env 10 = .proxyLoopError ∧
      postsOf (proxy_upstream_tool_call_with_retry none (some ()) (.ok ⟨strBytes "u", none⟩)
        8 c7Env 10) = 0) ∧
    (∃ out, proxy_upstream_tool_call_with_retry none (some ()) (.ok ⟨strBytes "u", none⟩) 1
        c7Env 10 =
        .posted (build_upstream_headers (Endpoint.mk (strBytes "u") none).auth (1 + 1)) out ∧
      headerGet HOP_HEADER
          (build_upstream_headers (Endpoint.mk (strBytes "u") none).auth (1 + 1)) =
        some (decBytes (1 + 1))) :=
  ⟨(hop_cap_dispatch none ⟨strBytes "u", none⟩ 8 c7Env 10).1 (by decide),
   (hop_cap_dispatch none ⟨strBytes "u", none⟩ 1 c7Env 10).2 (by decide)
     (fun v h => by cases h)⟩

/-- Model of `openapiv3::QueryStyle`. -/
inductive QueryStyle where
  | form
  | spaceDelimited
  | pipeDelimited
  | deepObject

/-- Model of `QuerySerialization` (runtime.rs). -/
structure QuerySerialization where
  style : QueryStyle
  explode : Bool
  allowReserved : Bool
  allowEmptyValue : Bool

/-- Model of `QueryPair` (runtime.rs). -/
structure QueryPair where
  key : ByteStr
  value : ByteStr
  allowReserved : Bool
deriving DecidableEq

/-- Model of `HttpParamLocation` (crate::config, not in the sources; its four
variants are taken from their uses in runtime.rs). -/
inductive HttpParamLocation where
  | path
  | query
  | header
  | body

/-- Model of `ToolParameter` (runtime.rs); `schema` is omitted (never read by
the request builder). -/
structure ToolParameter where
  toolName : ByteStr
  httpName : ByteStr
  location : HttpParamLocation
  required : Bool
  default : Option Json
  query : Option QuerySerialization

/-- Model of the two fields of `GeneratedTool` (runtime.rs) read by
`build_request_parts`. -/
structure GeneratedTool where
  path : ByteStr
  parameters : List ToolParameter

/-- Model of `RequestParts` (runtime.rs); `body_fields` is a `HashMap`,
modelled as an association list with replacing insert. -/
structure RequestParts where
  path : ByteStr
  queryParams : List QueryPair
  headers : List (ByteStr × ByteStr)
  bodyFields : List (ByteStr × Json)
  bodyPayload : Option Json

/-- Model of `Value::get` on an object (`None` on non-objects). -/
def jsonGet (v : Json) (k : ByteStr) : Option Json :=
  match v with
  | .obj fields => (fields.find? (fun kv => kv.1 == k)).map Prod.snd
  | _ => none

/-- Model of `HashMap::insert` for body fields. -/
def jsonMapInsert (k : ByteStr) (v : Json) (m : List (ByteStr × Json)) :
    List (ByteStr × Json) :=
  (k, v) :: m.filter (fun kv => !(kv.1 == k))

/-- Model of `value_to_string` (runtime.rs); `Value::to_string` for arrays and
objects is the compact serde serialization `serJson`. -/
def value_to_string : Json → ByteStr
  | .str s => s
  | .num n => intDecBytes n
  | .bool b => if b then strBytes "true" else strBytes "false"
  | .null => []
  | .arr xs => serJson (.arr xs)
  | .obj fields => serJson (.obj fields)

/-- Join byte strings with a separator (model of `join`). -/
def joinBytes (sep : ByteStr) : List ByteStr → ByteStr
  | [] => []
  | [x] => x
  | x :: y :: rest => x ++ sep ++ joinBytes sep (y :: rest)

/-- Model of `String::replace` (all occurrences), with fuel bounded by the
length of the subject; the pattern is never empty here. -/
def replaceAllBytesF : Nat → ByteStr → ByteStr → ByteStr → ByteStr
  | 0, _, _, s => s
  | _ + 1, _, _, [] => []
  | fuel + 1, pat, repl, c :: rest =>
    match stripPrefixBytes pat (c :: rest) with
    | some tail => repl ++ replaceAllBytesF fuel pat repl tail
    | none => c :: replaceAllBytesF fuel pat repl rest

def replaceAllBytes (pat repl s : ByteStr) : ByteStr :=
  if pat = [] then s else replaceAllBytesF s.length pat repl s

/-- Model of `query_value_is_empty` (runtime.rs). -/
def query_value_is_empty : Json → Bool
  | .str s => s.isEmpty
  | .arr a => a.isEmpty
  | .obj o => o.isEmpty
  | .null => true
  | _ => false

/-- Model of `serialize_empty_query_value` (runtime.rs). -/
def serialize_empty_query_value (name : ByteStr)
    (required allowReserved allowEmptyValue : Bool) : List QueryPair :=
  if allowEmptyValue || required then [⟨name, [], allowReserved⟩] else []

/-- Model of `serialize_query_array` (runtime.rs). -/
def serialize_query_array (name : ByteStr) (arr : List Json) (style : QueryStyle)
    (explode allowReserved : Bool) : List QueryPair :=
  let items := arr.map value_to_string
  match style with
  | .form =>
    if explode then items.map (fun v => ⟨name, v, allowReserved⟩)
    else [⟨name, joinBytes (strBytes ",") items, allowReserved⟩]
  | .spaceDelimited => [⟨name, joinBytes (strBytes " ") items, allowReserved⟩]
  | .pipeDelimited => [⟨name, joinBytes (strBytes "|") items, allowReserved⟩]
  | .deepObject => [⟨name, joinBytes (strBytes ",") items, allowReserved⟩]

/-- Model of `serialize_query_object` (runtime.rs). -/
def serialize_query_object (name : ByteStr) (map : List (ByteStr × Json))
    (style : QueryStyle) (explode allowReserved : Bool) : List QueryPair :=
  match style with
  | .deepObject =>
    map.map (fun kv => ⟨name ++ strBytes "[" ++ kv.1 ++ strBytes "]",
      value_to_string kv.2, allowReserved⟩)
  | .form =>
    if explode then
      map.map (fun kv => ⟨kv.1, value_to_string kv.2, allowReserved⟩)
    else
      [⟨name, joinBytes (strBytes ",")
        ((map.map (fun kv => [kv.1, value_to_string kv.2])).flatten), allowReserved⟩]
  | .spaceDelimited => [⟨name, serJson (.obj map), allowReserved⟩]
  | .pipeDelimited => [⟨name, serJson (.obj map), allowReserved⟩]

/-- Model of `serialize_query_scalar` (runtime.rs). -/
def serialize_query_scalar (name : ByteStr) (value : Json) (allowReserved : Bool) :
    List QueryPair :=
  [⟨name, value_to_string value, allowReserved⟩]

/-- Model of `serialize_query_param` (runtime.rs). -/
def serialize_query_param (name : ByteStr) (value : Json) (required : Bool)
    (ser : Option QuerySerialization) : List QueryPair :=
  let style := match ser with | some s => s.style | none => QueryStyle.form
  let explode := match ser with | some s => s.explode | none => true
  let allowReserved := match ser with | some s => s.allowReserved | none => false
  let allowEmptyValue := match ser with | some s => s.allowEmptyValue | none => false
  if query_value_is_empty value then
    serialize_empty_query_value name required allowReserved allowEmptyValue
  else
    match value with
    | .arr arr => serialize_query_array name arr style explode allowReserved
    | .obj map => serialize_query_object name map style explode allowReserved
    | v => serialize_query_scalar name v allowReserved

/-- One iteration of the parameter loop of `build_request_parts` (runtime.rs):
resolve the argument (falling back to the default), enforce the required
check, drop explicit nulls, then place the value according to its location. -/
def stepParam (arguments : Json) (st : RequestParts) (param : ToolParameter) :
    Except ByteStr RequestParts :=
  let value := (jsonGet arguments param.toolName).orElse (fun _ => param.default)
  if param.required && value.isNone then
    .error (strBytes "Missing required parameter: " ++ param.toolName)
  else
    let value2 := match value with
      | some .null => Option.none
      | other => other
    match value2 with
    | Option.none => .ok st
    | some val =>
      match param.location with
      | .path =>
        .ok { st with path :=
          replaceAllBytes (123 :: param.httpName ++ [125]) (value_to_string val) st.path }
      | .query =>
        .ok { st with queryParams := st.queryParams ++
          serialize_query_param param.httpName val param.required param.query }
      | .header =>
        .ok { st with headers := st.headers ++ [(param.httpName, value_to_string val)] }
      | .body =>
        if param.toolName = strBytes "body" ∧ param.httpName = strBytes "body" then
          .ok { st with bodyPayload := some val }
        else
          .ok { st with bodyFields := jsonMapInsert param.httpName val st.bodyFields }

/-- Model of `build_request_parts` (runtime.rs). -/
def build_request_parts (tool : GeneratedTool) (arguments : Json) :
    Except ByteStr RequestParts :=
  let path0 := match tool.path with
    | 47 :: rest => 47 :: rest
    | p => 47 :: p
  tool.parameters.foldlM (stepParam arguments) ⟨path0, [], [], [], Option.none⟩

/-- C9: serializing a query parameter whose value is empty (empty string,
empty array, empty object, or null) emits a single pair with an empty value
exactly when the parameter is required or `allowEmptyValue` is set, and emits
nothing otherwise. -/
theorem empty_query_value_emission (name : ByteStr) (value : Json) (required : Bool)
    (ser : Option QuerySerialization)
    (hempty : query_value_is_empty value = true) :
    serialize_query_param name value required ser =
      if (match ser with | some s => s.allowEmptyValue | none => false) || required then
        [⟨name, [], match ser with | some s => s.allowReserved | none => false⟩]
      else [] := by
  unfold serialize_query_param
  dsimp only
  rw [if_pos hempty]
  unfold serialize_empty_query_value
  rfl

theorem empty_query_value_emission_witness :
    serialize_query_param (strBytes "q") (Json.str []) false none = [] ∧
    serialize_query_param (strBytes "q") (Json.str []) true none =
      [⟨strBytes "q", [], false⟩] :=
  ⟨(empty_query_value_emission (strBytes "q") (Json.str []) false none rfl).trans rfl,
   (empty_query_value_emission (strBytes "q") (Json.str []) true none rfl).trans rfl⟩

theorem stepParam_explicit_null (args : Json) (st : RequestParts) (p : ToolParameter)
    (harg : jsonGet args p.toolName = some .null) :
    stepParam args st p = .ok st := by
  simp [stepParam, harg]

theorem stepParam_error (args : Json) (st : RequestParts) (p : ToolParameter)
    (t : ByteStr) (h : stepParam args st p = .error t) :
    t = strBytes "Missing required parameter: " ++ p.toolName ∧ p.required = true ∧
    jsonGet args p.toolName = none ∧ p.default = none := by
  unfold stepParam at h
  by_cases hc : (p.required &&
      ((jsonGet args p.toolName).orElse (fun _ => p.default)).isNone) = true
  · rw [if_pos hc] at h
    injection h with ht
    rw [Bool.and_eq_true] at hc
    rcases hc with ⟨hreq, hnone⟩
    have h2 : (jsonGet args p.toolName).orElse (fun _ => p.default) = none :=
      Option.isNone_iff_eq_none.mp hnone
    cases hjg : jsonGet args p.toolName with
    | some v =>
      rw [hjg] at h2
      exact absurd h2 (by simp [Option.orElse])
    | none =>
      rw [hjg] at h2
      have hd : p.default = none := by simpa [Option.orElse] using h2
      exact ⟨ht.symm, hreq, rfl, hd⟩
  · rw [if_neg hc] at h
    exfalso
    dsimp only at h
    repeat' split at h
    all_goals exact Except.noConfusion h

theorem foldlM_stepParam_error (args : Json) (params : List ToolParameter) :
    ∀ (st : RequestParts) (t : ByteStr),
      params.foldlM (stepParam args) st = .error t →
      ∃ q ∈ params, t = strBytes "Missing required parameter: " ++ q.toolName ∧
        q.required = true ∧ jsonGet args q.toolName = none ∧ q.default = none := by
  induction params with
  | nil =>
    intro st t h
    rw [List.foldlM_nil] at h
    exact Except.noConfusion h
  | cons q rest ih =>
    intro st t h
    rw [List.foldlM_cons] at h
    cases hq : stepParam args st q with
    | error e =>
      rw [hq] at h
      have h2 : (Except.error e : Except ByteStr RequestParts) = .error t := h
      injection h2 with he
      refine ⟨q, List.mem_cons_self q rest, ?_⟩
      rw [← he]
      exact stepParam_error args st q e hq
    | ok st2 =>
      rw [hq] at h
      have h2 : rest.foldlM (stepParam args) st2 = .error t := h
      rcases ih st2 t h2 with ⟨q2, hmem, hrest⟩
      exact ⟨q2, List.mem_cons_of_mem q hmem, hrest⟩

/-- C10: a parameter whose argument is explicitly JSON null passes the
required check and is then omitted entirely: building the request with it is
the same as building the request for the tool without that parameter (no path
substitution, query pair, header, or body field is produced for it); and any
missing-required-parameter failure names a parameter whose argument key is
absent and which has no default. -/
theorem build_request_parts_explicit_null (tool : GeneratedTool) (args : Json)
    (p : ToolParameter) (pre post : List ToolParameter)
    (hparams : tool.parameters = pre ++ p :: post)
    (harg : jsonGet args p.toolName = some .null) :
    build_request_parts tool args =
      build_request_parts ⟨tool.path, pre ++ post⟩ args ∧
    (∀ t, build_request_parts tool args = .error t →
      ∃ q ∈ tool.parameters, t = strBytes "Missing required parameter: " ++ q.toolName ∧
        q.required = true ∧ jsonGet args q.toolName = none ∧ q.default = none) := by
  constructor
  · unfold build_request_parts
    dsimp only
    rw [hparams]
    rw [List.foldlM_append, List.foldlM_append]
    congr 1
    funext st
    rw [List.foldlM_cons, stepParam_explicit_null args st p harg]
    rfl
  · intro t h
    unfold build_request_parts at h
    exact foldlM_stepParam_error args tool.parameters _ t h

/-- An optional query parameter `a`. -/
def c10ParamA : ToolParameter := ⟨strBytes "a", strBytes "a", .query, false, none, none⟩

/-- A required query parameter `x` with no default. -/
def c10ParamX : ToolParameter := ⟨strBytes "x", strBytes "x", .query, true, none, none⟩

def c10Tool : GeneratedTool := ⟨strBytes "/p", [c10ParamA, c10ParamX]⟩

/-- Arguments with a string for `a` and an explicit null for `x`. -/
def c10Args : Json := .obj [(strBytes "a", .str (strBytes "v")), (strBytes "x", .null)]

theorem build_request_parts_explicit_null_witness :
    build_request_parts c10Tool c10Args =
      build_request_parts ⟨c10Tool.path, [c10ParamA] ++ []⟩ c10Args ∧
    (∀ t, build_request_parts c10Tool c10Args = .error t →
      ∃ q ∈ c10Tool.parameters,
        t = strBytes "Missing required parameter: " ++ q.toolName ∧
        q.required = true ∧ jsonGet c10Args q.toolName = none ∧ q.default = none) :=
  build_request_parts_explicit_null c10Tool c10Args c10ParamX [c10ParamA] [] rfl rfl
